import Mathlib

/-!
# ThreadedFeatures: the feature registry and its sweep

A shallow embedding of `include/ThreadedFeatures.hpp`.

* A `std::atomic<bool>*` is the address (a natural number) of a host-owned cell,
  `nullptr` is `none`; the cells themselves are the map `State.flags`.
* A `std::function` is `Option Callback` (`none` for the empty function).  A
  callback is user code: the model keeps its identity and whether an invocation of
  it exits by an exception, and assumes it neither writes a flag cell nor re-enters
  the registry while the sweep runs.
* A `std::jthread` member is `Option JThread`: `none` is a handle that is not
  joinable, `some t` a joinable one, `t.stopRequested` the state of its stop source.
  Threads whose handle was overwritten (stop requested, then joined) are kept in the
  ghost list `State.joined`.
* `std::unordered_map<std::string, FeatureEntry>` is an association list; its order is
  the (unspecified) iteration order.
* Every invocation of a toggle callback is appended to the ghost list `State.log`.
* The thread function of lines 69-74 is the step machine `TickTask.step`; the state of
  the stop token at each step is given from outside, and time is not modelled, only
  the order of calls and waits.
* `entryEffects` lists the statements of the loop body of `UpdateAll` in program order;
  applied in order they give `updateEntry`.
-/

namespace ThreadedFeatures

/-- A callable held by a `std::function`: its identity, and whether a call of it
exits by throwing. -/
structure Callback where
  id : Nat
  throws : Bool
deriving DecidableEq, Repr

/-- A joinable `std::jthread` running the tick loop of `UpdateAll` (lines 69-74):
the captured `tick` and `rate`, and whether a stop has been requested. `tid` tells
thread instances apart. -/
structure JThread where
  tid : Nat
  tick : Callback
  rate : Nat
  stopRequested : Bool
deriving DecidableEq, Repr

/-- The call `std::jthread::request_stop()` on a joinable handle. -/
def JThread.request_stop (t : JThread) : JThread :=
  { t with stopRequested := true }

/-- The struct `FeatureEntry` (lines 11-35); `tickRate` is in milliseconds. -/
structure FeatureEntry where
  flag : Option Nat
  lastState : Bool
  onToggle : Option Callback
  onTick : Option Callback
  threaded : Bool
  tickRate : Nat
  thread : Option JThread
deriving DecidableEq, Repr

/-- The defaulted constructor `FeatureEntry()` (line 22) with the member initialisers
of lines 12-20. -/
def FeatureEntry.default : FeatureEntry :=
  { flag := none, lastState := false, onToggle := none, onTick := none,
    threaded := false, tickRate := 3, thread := none }

/-- The public constructor (lines 24-34): `lastState` and `thread` keep their member
initialisers. -/
def FeatureEntry.new (flagRef : Option Nat) (toggleCallback : Option Callback)
    (runInThread : Bool) (tickFunction : Option Callback) (tickInterval : Nat) :
    FeatureEntry :=
  { flag := flagRef, lastState := false, onToggle := toggleCallback,
    onTick := tickFunction, threaded := runInThread, tickRate := tickInterval,
    thread := none }

/-- Move assignment of `std::jthread`: if the target is joinable it calls
`request_stop()` and `join()` on it, then takes the source's thread. The result is
the new handle and the threads that were joined. -/
def JThread.moveAssign (target source : Option JThread) : Option JThread × List JThread :=
  match target with
  | some t => (source, [t.request_stop])
  | none => (source, [])

/-- The implicit move assignment of `FeatureEntry`, member by member: the plain
members are overwritten, the `thread` member goes through `JThread.moveAssign`. -/
def FeatureEntry.moveAssign (target source : FeatureEntry) : FeatureEntry × List JThread :=
  ({ source with thread := (JThread.moveAssign target.thread source.thread).1 },
   (JThread.moveAssign target.thread source.thread).2)

/-- One invocation `entry.onToggle(current)` made by the sweep for the entry
registered under `name`. -/
structure ToggleCall where
  name : String
  callback : Callback
  value : Bool
deriving DecidableEq, Repr

/-- The `FeatureManager` singleton together with the host's flag cells. -/
structure State where
  features : List (String × FeatureEntry)
  flags : Nat → Bool
  joined : List JThread
  nextTid : Nat
  log : List ToggleCall

/-- The registered names, in iteration order. -/
def State.keys (s : State) : List String :=
  s.features.map Prod.fst

/-- The freshly constructed manager (line 90) beside the given flag cells. -/
def State.init (flags : Nat → Bool) : State :=
  { features := [], flags := flags, joined := [], nextTid := 0, log := [] }

/-- The host writes `v` into the flag cell at address `f`. -/
def State.store (s : State) (f : Nat) (v : Bool) : State :=
  { s with flags := fun g => if g = f then v else s.flags g }

/-- The statement `features[name] = std::move(entry)` on the association list:
`operator[]` finds the slot of `name` or inserts a default-constructed entry, and the
slot is then move-assigned. Where a new slot lands in the iteration order is
unspecified; here it is the end. -/
def assign (name : String) (entry : FeatureEntry) :
    List (String × FeatureEntry) → List (String × FeatureEntry) × List JThread
  | [] => ([(name, (FeatureEntry.moveAssign FeatureEntry.default entry).1)],
           (FeatureEntry.moveAssign FeatureEntry.default entry).2)
  | (k, old) :: rest =>
    if k = name then
      ((k, (FeatureEntry.moveAssign old entry).1) :: rest, (FeatureEntry.moveAssign old entry).2)
    else
      ((k, old) :: (assign name entry rest).1, (assign name entry rest).2)

/-- The method `FeatureManager::Register` (lines 47-50). -/
def Register (s : State) (name : String) (entry : FeatureEntry) : State :=
  { s with features := (assign name entry s.features).1,
           joined := s.joined ++ (assign name entry s.features).2 }

/-- What the body of the sweep's loop does for one entry: the entry afterwards, the
toggle calls made, the threads joined, the next free thread id, and whether the
body was left by an exception of the toggle callback. -/
structure Step where
  entry : FeatureEntry
  calls : List ToggleCall
  joined : List JThread
  nextTid : Nat
  threw : Bool
deriving DecidableEq, Repr

/-- Lines 64-76 of `UpdateAll`, run after the toggle callback returned: a threaded
entry has a stop requested on its joinable thread, and when `current` holds and
`onTick` is set a new thread is constructed and move-assigned into the handle. -/
def restartThread (entry : FeatureEntry) (current : Bool) (tid : Nat) :
    FeatureEntry × List JThread × Nat :=
  if entry.threaded then
    let stopped : FeatureEntry := { entry with thread := entry.thread.map JThread.request_stop }
    match current, stopped.onTick with
    | true, some tick =>
      let fresh : JThread :=
        { tid := tid, tick := tick, rate := stopped.tickRate, stopRequested := false }
      ({ stopped with thread := (JThread.moveAssign stopped.thread (some fresh)).1 },
       (JThread.moveAssign stopped.thread (some fresh)).2, tid + 1)
    | _, _ => (stopped, [], tid)
  else
    (entry, [], tid)

/-- The body of the loop of `UpdateAll` (lines 55-77) for the entry under `name`. -/
def updateEntry (flags : Nat → Bool) (name : String) (entry : FeatureEntry) (tid : Nat) :
    Step :=
  match entry.flag with
  | none => ⟨entry, [], [], tid, false⟩
  | some f =>
    let current := flags f
    if current != entry.lastState then
      let seen : FeatureEntry := { entry with lastState := current }
      match seen.onToggle with
      | some cb =>
        if cb.throws then
          ⟨seen, [⟨name, cb, current⟩], [], tid, true⟩
        else
          ⟨(restartThread seen current tid).1, [⟨name, cb, current⟩],
            (restartThread seen current tid).2.1, (restartThread seen current tid).2.2, false⟩
      | none =>
        ⟨(restartThread seen current tid).1, [],
          (restartThread seen current tid).2.1, (restartThread seen current tid).2.2, false⟩
    else
      ⟨entry, [], [], tid, false⟩

/-- The outcome of the loop of `UpdateAll` over the mapping. -/
structure SweepResult where
  features : List (String × FeatureEntry)
  calls : List ToggleCall
  joined : List JThread
  nextTid : Nat
  threw : Bool

/-- The loop of `UpdateAll` (lines 54-78) in iteration order. An exception of a toggle
callback is not caught, so it ends the loop: the entries after it are not visited. -/
def sweep (flags : Nat → Bool) : List (String × FeatureEntry) → Nat → SweepResult
  | [], tid => ⟨[], [], [], tid, false⟩
  | (name, entry) :: rest, tid =>
    let r := updateEntry flags name entry tid
    if r.threw then
      ⟨(name, r.entry) :: rest, r.calls, r.joined, r.nextTid, true⟩
    else
      let k := sweep flags rest r.nextTid
      ⟨(name, r.entry) :: k.features, r.calls ++ k.calls, r.joined ++ k.joined, k.nextTid,
        k.threw⟩

/-- The method `FeatureManager::UpdateAll` (lines 52-79): the state it leaves behind,
whether it returns or is left by an exception. -/
def UpdateAll (s : State) : State :=
  { s with features := (sweep s.flags s.features s.nextTid).features,
           joined := s.joined ++ (sweep s.flags s.features s.nextTid).joined,
           nextTid := (sweep s.flags s.features s.nextTid).nextTid,
           log := s.log ++ (sweep s.flags s.features s.nextTid).calls }

/-- Whether this call of `UpdateAll` is left by an exception instead of returning. -/
def UpdateAllThrows (s : State) : Bool :=
  (sweep s.flags s.features s.nextTid).threw

/-- The toggle calls made by this call of `UpdateAll`, in order. -/
def UpdateAllCalls (s : State) : List ToggleCall :=
  (sweep s.flags s.features s.nextTid).calls

/-- The body of the loop of `StopAllThreads` (lines 84-85). -/
def FeatureEntry.stopThread (entry : FeatureEntry) : FeatureEntry :=
  match entry.thread with
  | some t => { entry with thread := some t.request_stop }
  | none => entry

/-- The method `FeatureManager::StopAllThreads` (lines 81-87). -/
def StopAllThreads (s : State) : State :=
  { s with features := s.features.map fun p => (p.1, p.2.stopThread) }

/-- A handle that holds a thread on which no stop has been requested. -/
def JThread.running (h : Option JThread) : Bool :=
  match h with
  | some t => !t.stopRequested
  | none => false

/-- The number of running tick threads held under `name`. -/
def State.runningCount (s : State) (name : String) : Nat :=
  ((s.features.filter fun p => p.1 = name).filter fun p => JThread.running p.2.thread).length

/-- What the host does between two observations. -/
inductive HostOp where
  | store (f : Nat) (v : Bool)
  | updateAll
deriving DecidableEq, Repr

/-- One host operation. -/
def HostOp.apply (s : State) : HostOp → State
  | HostOp.store f v => s.store f v
  | HostOp.updateAll => UpdateAll s

/-- A sequence of host operations, first to last. -/
def run (s : State) (ops : List HostOp) : State :=
  ops.foldl HostOp.apply s

/-! ## The example driver's registrations, as concrete states -/

/-- The toggle callback given to `REG_FEATURE(FeatureA, ...)` (example, lines 49-54). -/
def exToggleA : Callback := ⟨1, false⟩

/-- The toggle callback of `FeatureB` (example, lines 59-62). -/
def exToggleB : Callback := ⟨2, false⟩

/-- The tick callback of `FeatureB` (example, lines 63-66). -/
def exTickB : Callback := ⟨3, false⟩

/-- The entry `REG_FEATURE(FeatureA, ...)` builds; the cell `FeatureA` is at address 0. -/
def exA : FeatureEntry := FeatureEntry.new (some 0) (some exToggleA) false none 3

/-- The entry `REG_FEATURE_IN_THREAD(FeatureB, ..., 500)` builds; the cell `FeatureB` is
at address 1. -/
def exB : FeatureEntry := FeatureEntry.new (some 1) (some exToggleB) true (some exTickB) 500

/-- The state after both registrations, all cells false. -/
def exRegistered : State :=
  Register (Register (State.init fun _ => false) "FeatureA" exA) "FeatureB" exB

/-- The host has set both cells (example, lines 19-20). -/
def exOn : State := (exRegistered.store 0 true).store 1 true

/-- The state after the first sweep. -/
def exRunning : State := UpdateAll exOn

/-- The thread the first sweep starts for `FeatureB`. -/
def exThreadB : JThread := ⟨0, exTickB, 500, false⟩

/-- The entry of `FeatureB` after the first sweep. -/
def exBRunning : FeatureEntry := { exB with lastState := true, thread := some exThreadB }

/-- The host has cleared `FeatureB` again (example, line 31). -/
def exOff : State := exRunning.store 1 false

/-- A sweep followed by a write to another cell and a second sweep. -/
def exOps : List HostOp := [HostOp.updateAll, HostOp.store 1 true, HostOp.updateAll]

/-! ## Sequences of calls, the members fixed at registration, and the effects of the loop body -/

/-- What the host does to the manager and to the cells. -/
inductive Op where
  | store (f : Nat) (v : Bool)
  | register (name : String) (entry : FeatureEntry)
  | updateAll
  | stopAll
deriving DecidableEq, Repr

/-- One operation of the host. A sweep left by an exception leaves the state it had
reached, and the host goes on. -/
def Op.apply (s : State) : Op → State
  | Op.store f v => s.store f v
  | Op.register name entry => Register s name entry
  | Op.updateAll => UpdateAll s
  | Op.stopAll => StopAllThreads s

/-- A sequence of operations, first to last. -/
def exec (s : State) (ops : List Op) : State :=
  ops.foldl Op.apply s

/-- Whether the operation is a call of `Register`. -/
def Op.isRegister : Op → Bool
  | Op.register _ _ => true
  | _ => false

/-- The members of an entry that are set by the constructor and that neither
`UpdateAll` nor `StopAllThreads` assigns: `flag`, `onToggle`, `onTick`, `threaded`,
`tickRate`. -/
def FeatureEntry.fixed (e : FeatureEntry) :
    Option Nat × Option Callback × Option Callback × Bool × Nat :=
  (e.flag, e.onToggle, e.onTick, e.threaded, e.tickRate)

/-- The effects of the loop body of `UpdateAll` on one entry, one per statement. -/
inductive Effect where
  | setLastState (v : Bool)
  | callToggle (cb : Callback) (v : Bool)
  | requestStop
  | startThread (t : JThread)
  | moveAssignThread (t : JThread)
deriving DecidableEq, Repr

/-- What an effect does to the entry and to the list of joined threads: line 59,
line 62 (the callback does not touch the entry), line 66, the construction of the new
thread in line 69 (not yet in the handle), and the move assignment of line 69. -/
def Effect.apply (st : FeatureEntry × List JThread) : Effect → FeatureEntry × List JThread
  | Effect.setLastState v => ({ st.1 with lastState := v }, st.2)
  | Effect.callToggle _ _ => st
  | Effect.requestStop => ({ st.1 with thread := st.1.thread.map JThread.request_stop }, st.2)
  | Effect.startThread _ => st
  | Effect.moveAssignThread t =>
    ({ st.1 with thread := (JThread.moveAssign st.1.thread (some t)).1 },
     st.2 ++ (JThread.moveAssign st.1.thread (some t)).2)

/-- Whether the effect belongs to lines 64-76, the handling of the tick thread. -/
def Effect.onThread : Effect → Bool
  | Effect.requestStop => true
  | Effect.startThread _ => true
  | Effect.moveAssignThread _ => true
  | _ => false

/-- Lines 64-76 of `UpdateAll` as effects in program order. -/
def threadEffects (entry : FeatureEntry) (current : Bool) (tid : Nat) : List Effect :=
  if entry.threaded then
    (if entry.thread.isSome then [Effect.requestStop] else []) ++
      (match current, entry.onTick with
       | true, some tick =>
         [Effect.startThread ⟨tid, tick, entry.tickRate, false⟩,
          Effect.moveAssignThread ⟨tid, tick, entry.tickRate, false⟩]
       | _, _ => [])
  else
    []

/-- The loop body of `UpdateAll` (lines 55-77) as effects in program order; an
exception of the toggle callback ends the list. -/
def entryEffects (flags : Nat → Bool) (entry : FeatureEntry) (tid : Nat) : List Effect :=
  match entry.flag with
  | none => []
  | some f =>
    if flags f != entry.lastState then
      Effect.setLastState (flags f) ::
        (match entry.onToggle with
         | some cb =>
           Effect.callToggle cb (flags f) ::
             (if cb.throws then []
              else threadEffects { entry with lastState := flags f } (flags f) tid)
         | none => threadEffects { entry with lastState := flags f } (flags f) tid)
    else
      []

/-! ## The tick thread -/

/-- Where the thread function of lines 69-74 stands: before the test of the loop,
before the call `tick()`, before `sleep_for(rate)`, after the loop, or ended by
`std::terminate` because `tick()` threw. -/
inductive TickPc where
  | check
  | call
  | sleep
  | exited
  | terminated
deriving DecidableEq, Repr

/-- What a tick thread has done: a call of the tick callback, or a wait of `ms`
milliseconds. -/
inductive TickEvent where
  | tick
  | wait (ms : Nat)
deriving DecidableEq, Repr

/-- A tick thread under way: where it stands and what it has done, oldest first. -/
structure TickTask where
  pc : TickPc
  events : List TickEvent
deriving DecidableEq, Repr

/-- The thread right after `std::jthread` started it. -/
def TickTask.start : TickTask :=
  { pc := TickPc.check, events := [] }

/-- One statement of the thread function of `j` (lines 70-73); `stop` is what
`st.stop_requested()` answers at this moment. -/
def TickTask.step (j : JThread) (stop : Bool) (k : TickTask) : TickTask :=
  match k.pc with
  | TickPc.check => if stop then { k with pc := TickPc.exited } else { k with pc := TickPc.call }
  | TickPc.call =>
    if j.tick.throws then { pc := TickPc.terminated, events := k.events ++ [TickEvent.tick] }
    else { pc := TickPc.sleep, events := k.events ++ [TickEvent.tick] }
  | TickPc.sleep => { pc := TickPc.check, events := k.events ++ [TickEvent.wait j.rate] }
  | TickPc.exited => k
  | TickPc.terminated => k

/-- The thread of `j` run for as many statements as `stops` is long; `stops` gives
the state of the stop token at each of them. -/
def TickTask.run (j : JThread) (stops : List Bool) (k : TickTask) : TickTask :=
  stops.foldl (fun k stop => TickTask.step j stop k) k

/-- The number of calls of the tick callback the thread has made. -/
def TickTask.ticks (k : TickTask) : Nat :=
  k.events.count TickEvent.tick

/-- The events of `n` full rounds of the loop: a call, then a wait of `rate`. -/
def tickRounds (rate : Nat) : Nat → List TickEvent
  | 0 => []
  | n + 1 => tickRounds rate n ++ [TickEvent.tick, TickEvent.wait rate]

/-! ## Further concrete states -/

/-- A toggle callback that throws. -/
def exToggleThrowing : Callback := ⟨4, true⟩

/-- An entry for the cell at address 0 whose toggle callback throws. -/
def exAThrowing : FeatureEntry := FeatureEntry.new (some 0) (some exToggleThrowing) false none 3

/-- Both cells set, `FeatureA` registered with the throwing callback before `FeatureB`. -/
def exThrowing : State :=
  ((Register (Register (State.init fun _ => false) "FeatureA" exAThrowing) "FeatureB" exB).store
    0 true).store 1 true

/-- Both cells set and only `FeatureA` registered, with the throwing callback. -/
def exThrowingPrior : State :=
  ((Register (State.init fun _ => false) "FeatureA" exAThrowing).store 0 true).store 1 true

/-- The scenario set, sweep, clear, sweep, set, sweep for `FeatureB`, after its
registration. -/
def exOpsB : List Op :=
  [Op.register "FeatureB" exB, Op.store 1 true, Op.updateAll, Op.store 1 false, Op.updateAll,
   Op.store 1 true, Op.updateAll]

/-- A threaded entry with neither callback. -/
def exInert : FeatureEntry := FeatureEntry.new (some 2) none true none 3

/-- A default-constructed entry stored between the two registrations of the example. -/
def exUnset : State :=
  { exOn with features := [("FeatureA", exA), ("Unset", FeatureEntry.default), ("FeatureB", exB)] }

/-- All cells set; `FeatureB` is swept first, then an entry whose toggle callback
throws, then the entry without callbacks. -/
def exThrowingMid : State :=
  { State.init (fun _ => true) with
    features := [("FeatureB", exB), ("FeatureA", exAThrowing), ("Inert", exInert)] }

/-- Writes, sweeps and a stop around the cell at address 2. -/
def exOpsInert : List Op :=
  [Op.store 2 true, Op.updateAll, Op.stopAll, Op.store 2 false, Op.updateAll]

/-- A tick thread that has made one full round and stands before the next call. -/
def exTaskBeforeCall : TickTask :=
  { pc := TickPc.call, events := [TickEvent.tick, TickEvent.wait 500] }

/-! ## Lemmas about the loop of the sweep -/

theorem restartThread_nextTid_le (e : FeatureEntry) (c : Bool) (t : Nat) :
    t ≤ (restartThread e c t).2.2 := by
  unfold restartThread
  split
  · dsimp only
    split <;> simp
  · simp

theorem updateEntry_calls_name (fl : Nat → Bool) (n : String) (e : FeatureEntry) (t : Nat) :
    ∀ c ∈ (updateEntry fl n e t).calls, c.name = n := by
  intro c hc
  unfold updateEntry at hc
  split at hc
  · simp at hc
  · dsimp only at hc
    split at hc
    · split at hc
      · split at hc <;> simp at hc <;> simp [hc]
      · simp at hc
    · simp at hc

theorem updateEntry_nextTid_le (fl : Nat → Bool) (n : String) (e : FeatureEntry) (t : Nat) :
    t ≤ (updateEntry fl n e t).nextTid := by
  unfold updateEntry
  split
  · simp
  · dsimp only
    split
    · split
      · split
        · simp
        · exact restartThread_nextTid_le _ _ _
      · exact restartThread_nextTid_le _ _ _
    · simp

theorem sweep_keys (fl : Nat → Bool) (l : List (String × FeatureEntry)) (t : Nat) :
    (sweep fl l t).features.map Prod.fst = l.map Prod.fst := by
  induction l generalizing t with
  | nil => simp [sweep]
  | cons p rest ih =>
    obtain ⟨k, e0⟩ := p
    simp only [sweep]
    split
    · simp
    · simp [ih]

theorem sweep_calls_name (fl : Nat → Bool) (l : List (String × FeatureEntry)) (t : Nat) :
    ∀ c ∈ (sweep fl l t).calls, c.name ∈ l.map Prod.fst := by
  induction l generalizing t with
  | nil => simp [sweep]
  | cons p rest ih =>
    obtain ⟨k, e0⟩ := p
    intro c hc
    simp only [sweep] at hc
    split at hc
    · have := updateEntry_calls_name fl k e0 t c hc
      simp [this]
    · simp only [List.mem_append] at hc
      rcases hc with hc | hc
      · have := updateEntry_calls_name fl k e0 t c hc
        simp [this]
      · have := ih _ c hc
        simp only [List.map_cons, List.mem_cons]
        exact Or.inr this

theorem sweep_nextTid_le (fl : Nat → Bool) (l : List (String × FeatureEntry)) (t : Nat) :
    t ≤ (sweep fl l t).nextTid := by
  induction l generalizing t with
  | nil => simp [sweep]
  | cons p rest ih =>
    obtain ⟨k, e0⟩ := p
    simp only [sweep]
    split
    · exact updateEntry_nextTid_le _ _ _ _
    · exact le_trans (updateEntry_nextTid_le fl k e0 t) (ih _)

theorem filter_calls_other (n : String) (cs : List ToggleCall)
    (h : ∀ c ∈ cs, c.name ≠ n) : cs.filter (fun c => decide (c.name = n)) = [] := by
  rw [List.filter_eq_nil_iff]
  intro c hc
  simpa using h c hc

theorem filter_calls_same (n : String) (cs : List ToggleCall)
    (h : ∀ c ∈ cs, c.name = n) : cs.filter (fun c => decide (c.name = n)) = cs := by
  rw [List.filter_eq_self]
  intro c hc
  simpa using h c hc

/-- What the sweep does to one registered entry when the names are distinct: either
the loop body ran for it, or an exception ended the loop before it was reached. -/
theorem sweep_entry (fl : Nat → Bool) (l : List (String × FeatureEntry)) (t : Nat)
    (n : String) (e : FeatureEntry)
    (hnd : (l.map Prod.fst).Nodup) (hmem : (n, e) ∈ l) :
    (∃ t1, t ≤ t1 ∧ (n, (updateEntry fl n e t1).entry) ∈ (sweep fl l t).features ∧
        (sweep fl l t).calls.filter (fun c => decide (c.name = n)) = (updateEntry fl n e t1).calls ∧
        (∀ j ∈ (updateEntry fl n e t1).joined, j ∈ (sweep fl l t).joined) ∧
        ((sweep fl l t).threw = false → (updateEntry fl n e t1).threw = false)) ∨
    ((sweep fl l t).threw = true ∧ (n, e) ∈ (sweep fl l t).features ∧
        (sweep fl l t).calls.filter (fun c => decide (c.name = n)) = []) := by
  induction l generalizing t with
  | nil => simp at hmem
  | cons p rest ih =>
    obtain ⟨k, e0⟩ := p
    simp only [List.map_cons, List.nodup_cons] at hnd
    obtain ⟨hk, hrest⟩ := hnd
    simp only [List.mem_cons, Prod.mk.injEq] at hmem
    rcases hmem with ⟨rfl, rfl⟩ | hmem
    · -- the entry is the head
      left
      refine ⟨t, le_refl _, ?_, ?_, ?_, ?_⟩
      · simp only [sweep]; split <;> simp
      · simp only [sweep]
        split
        · exact filter_calls_same _ _ (updateEntry_calls_name fl n e t)
        · rw [List.filter_append, filter_calls_same _ _ (updateEntry_calls_name fl n e t),
            filter_calls_other n (sweep fl rest _).calls, List.append_nil]
          intro c hc hcn
          exact hk (hcn ▸ sweep_calls_name fl rest _ c hc)
      · intro j hj
        simp only [sweep]
        split
        · exact hj
        · exact List.mem_append_left _ hj
      · intro hth
        simp only [sweep] at hth
        split at hth
        · simp at hth
        · rename_i h; simpa using h
    · -- the entry is in the tail
      have hne : k ≠ n := by
        rintro rfl
        exact hk (List.mem_map_of_mem Prod.fst hmem)
      have hhead : (updateEntry fl k e0 t).calls.filter (fun c => decide (c.name = n)) = [] :=
        filter_calls_other _ _ (fun c hc h => hne ((updateEntry_calls_name fl k e0 t c hc).symm.trans h))
      by_cases hthrew : (updateEntry fl k e0 t).threw = true
      · right
        simp only [sweep, hthrew, if_true]
        exact ⟨trivial, List.mem_cons_of_mem _ hmem, hhead⟩
      · rcases ih (updateEntry fl k e0 t).nextTid hrest hmem with
          ⟨t1, ht1, hin, hcalls, hjoin, hth⟩ | ⟨hth, hin, hcalls⟩
        · left
          refine ⟨t1, le_trans (updateEntry_nextTid_le fl k e0 t) ht1, ?_, ?_, ?_, ?_⟩
          · simp only [sweep, hthrew]; exact List.mem_cons_of_mem _ hin
          · simp only [sweep, hthrew]
            simp only [Bool.false_eq_true, if_false, List.filter_append, hhead, List.nil_append]
            exact hcalls
          · intro j hj
            simp only [sweep, hthrew]
            exact List.mem_append_right _ (hjoin j hj)
          · intro h
            simp only [sweep, hthrew] at h
            exact hth h
        · right
          simp only [sweep, hthrew]
          simp only [Bool.false_eq_true, if_false, List.filter_append, hhead, List.nil_append]
          exact ⟨hth, List.mem_cons_of_mem _ hin, hcalls⟩

theorem filter_key_of_mem (l : List (String × FeatureEntry)) (n : String) (e : FeatureEntry)
    (hnd : (l.map Prod.fst).Nodup) (hmem : (n, e) ∈ l) :
    l.filter (fun p => decide (p.1 = n)) = [(n, e)] := by
  induction l with
  | nil => simp at hmem
  | cons p rest ih =>
    obtain ⟨k, e0⟩ := p
    simp only [List.map_cons, List.nodup_cons] at hnd
    obtain ⟨hk, hrest⟩ := hnd
    simp only [List.mem_cons, Prod.mk.injEq] at hmem
    rcases hmem with ⟨rfl, rfl⟩ | hmem
    · have : rest.filter (fun p => decide (p.1 = n)) = [] := by
        rw [List.filter_eq_nil_iff]
        intro p hp
        simp only [decide_eq_true_eq]
        intro h
        exact hk (h ▸ List.mem_map_of_mem Prod.fst hp)
      simp [List.filter_cons, this]
    · have hne : k ≠ n := by
        rintro rfl
        exact hk (List.mem_map_of_mem Prod.fst hmem)
      simp [List.filter_cons, hne, ih hrest hmem]

theorem mem_unique_of_nodup (l : List (String × FeatureEntry)) (n : String)
    (e e1 : FeatureEntry) (hnd : (l.map Prod.fst).Nodup)
    (hmem : (n, e) ∈ l) (hmem1 : (n, e1) ∈ l) : e1 = e := by
  have h := filter_key_of_mem l n e hnd hmem
  have h1 : (n, e1) ∈ l.filter (fun p => decide (p.1 = n)) := by
    simp [List.mem_filter, hmem1]
  rw [h] at h1
  simpa using h1

theorem runningCount_of_mem (s : State) (n : String) (e : FeatureEntry)
    (hnd : s.keys.Nodup) (hmem : (n, e) ∈ s.features) :
    s.runningCount n = if JThread.running e.thread = true then 1 else 0 := by
  unfold State.runningCount
  rw [filter_key_of_mem s.features n e hnd hmem]
  by_cases h : JThread.running e.thread = true <;> simp [List.filter_cons, h]

theorem UpdateAll_keys (s : State) : (UpdateAll s).keys = s.keys := by
  simp [State.keys, UpdateAll, sweep_keys]

theorem updateEntry_calls (fl : Nat → Bool) (n : String) (e : FeatureEntry) (t f : Nat)
    (cb : Callback) (hflag : e.flag = some f) (hcb : e.onToggle = some cb) :
    (updateEntry fl n e t).calls = if fl f ≠ e.lastState then [⟨n, cb, fl f⟩] else [] := by
  by_cases h : fl f = e.lastState
  · simp [updateEntry, hflag, h]
  · by_cases hth : cb.throws = true <;> simp [updateEntry, hflag, hcb, h, hth]

theorem updateEntry_turn_on (fl : Nat → Bool) (n : String) (e : FeatureEntry) (t f : Nat)
    (tk : Callback) (hthreaded : e.threaded = true) (htick : e.onTick = some tk)
    (hflag : e.flag = some f) (hcur : fl f = true) (hlast : e.lastState = false)
    (hok : (updateEntry fl n e t).threw = false) :
    (updateEntry fl n e t).entry =
        { e with lastState := true, thread := some ⟨t, tk, e.tickRate, false⟩ } ∧
      ∀ old, e.thread = some old → old.request_stop ∈ (updateEntry fl n e t).joined := by
  cases hcb : e.onToggle with
  | none =>
    constructor
    · simp [updateEntry, hflag, hcur, hlast, hcb, restartThread, hthreaded, htick,
        JThread.moveAssign]
      cases e.thread <;> simp
    · intro old hold
      simp [updateEntry, hflag, hcur, hlast, hcb, restartThread, hthreaded, htick,
        JThread.moveAssign, hold, JThread.request_stop]
  | some cb =>
    by_cases hth : cb.throws = true
    · simp [updateEntry, hflag, hcur, hlast, hcb, hth] at hok
    · constructor
      · simp [updateEntry, hflag, hcur, hlast, hcb, hth, restartThread, hthreaded, htick,
          JThread.moveAssign]
        cases e.thread <;> simp
      · intro old hold
        simp [updateEntry, hflag, hcur, hlast, hcb, hth, restartThread, hthreaded, htick,
          JThread.moveAssign, hold, JThread.request_stop]

theorem updateEntry_turn_off (fl : Nat → Bool) (n : String) (e : FeatureEntry) (t f : Nat)
    (th : JThread) (hthreaded : e.threaded = true) (hthread : e.thread = some th)
    (hflag : e.flag = some f) (hcur : fl f = false) (hlast : e.lastState = true)
    (hok : (updateEntry fl n e t).threw = false) :
    (updateEntry fl n e t).entry =
        { e with lastState := false, thread := some th.request_stop } := by
  cases hcb : e.onToggle with
  | none =>
    simp [updateEntry, hflag, hcur, hlast, hcb, restartThread, hthreaded, hthread]
  | some cb =>
    by_cases hth : cb.throws = true
    · simp [updateEntry, hflag, hcur, hlast, hcb, hth] at hok
    · simp [updateEntry, hflag, hcur, hlast, hcb, hth, restartThread, hthreaded, hthread]


theorem restartThread_fields (e : FeatureEntry) (c : Bool) (t : Nat) :
    (restartThread e c t).1.flag = e.flag ∧ (restartThread e c t).1.lastState = e.lastState := by
  unfold restartThread
  split
  · dsimp only
    split <;> simp
  · simp

theorem updateEntry_steady (fl : Nat → Bool) (n : String) (e : FeatureEntry) (t : Nat)
    (h : ∀ f, e.flag = some f → fl f = e.lastState) :
    updateEntry fl n e t = ⟨e, [], [], t, false⟩ := by
  cases hflag : e.flag with
  | none => simp [updateEntry, hflag]
  | some f => simp [updateEntry, hflag, h f hflag]

theorem updateEntry_entry_steady (fl : Nat → Bool) (n : String) (e : FeatureEntry) (t : Nat) :
    ∀ f, (updateEntry fl n e t).entry.flag = some f →
      fl f = (updateEntry fl n e t).entry.lastState := by
  intro f
  cases hflag : e.flag with
  | none => simp [updateEntry, hflag]
  | some g =>
    by_cases h : fl g = e.lastState
    · simp only [updateEntry, hflag, h, bne_self_eq_false, Bool.false_eq_true, if_false]
      intro hf
      cases hf
      exact h
    · cases hcb : e.onToggle with
      | none =>
        simp only [updateEntry, hflag, hcb, bne_iff_ne, ne_eq, h, not_false_eq_true, if_true,
          (restartThread_fields _ _ _).1, (restartThread_fields _ _ _).2]
        intro hf; cases hf; rfl
      | some cb =>
        by_cases hth : cb.throws = true
        · simp only [updateEntry, hflag, hcb, bne_iff_ne, ne_eq, h, not_false_eq_true, if_true,
            hth]
          intro hf; cases hf; rfl
        · simp only [updateEntry, hflag, hcb, bne_iff_ne, ne_eq, h, not_false_eq_true,
            if_true, hth, Bool.false_eq_true, if_false,
            (restartThread_fields _ _ _).1, (restartThread_fields _ _ _).2]
          intro hf; cases hf; rfl

theorem sweep_steady (fl : Nat → Bool) (l : List (String × FeatureEntry)) (t : Nat)
    (h : ∀ p ∈ l, ∀ f, p.2.flag = some f → fl f = p.2.lastState) :
    sweep fl l t = ⟨l, [], [], t, false⟩ := by
  induction l generalizing t with
  | nil => rfl
  | cons p rest ih =>
    obtain ⟨k, e0⟩ := p
    have h0 := updateEntry_steady fl k e0 t (h (k, e0) (List.mem_cons_self _ _))
    have hr := ih t (fun p hp => h p (List.mem_cons_of_mem _ hp))
    simp [sweep, h0, hr]

theorem sweep_settles (fl : Nat → Bool) (l : List (String × FeatureEntry)) (t : Nat)
    (hok : (sweep fl l t).threw = false) :
    ∀ p ∈ (sweep fl l t).features, ∀ f, p.2.flag = some f → fl f = p.2.lastState := by
  induction l generalizing t with
  | nil => simp [sweep]
  | cons p rest ih =>
    obtain ⟨k, e0⟩ := p
    by_cases hth : (updateEntry fl k e0 t).threw = true
    · simp [sweep, hth] at hok
    · simp only [sweep, hth, Bool.false_eq_true, if_false] at hok ⊢
      intro p hp
      simp only [List.mem_cons] at hp
      rcases hp with rfl | hp
      · exact updateEntry_entry_steady fl k e0 t
      · exact ih _ hok p hp


theorem moveAssign_fst (old new : FeatureEntry) : (FeatureEntry.moveAssign old new).1 = new := by
  cases h : old.thread <;> simp [FeatureEntry.moveAssign, JThread.moveAssign, h]

theorem moveAssign_snd (old new : FeatureEntry) (th : JThread) (h : old.thread = some th) :
    (FeatureEntry.moveAssign old new).2 = [th.request_stop] := by
  simp [FeatureEntry.moveAssign, JThread.moveAssign, h]

theorem assign_mem (name : String) (entry : FeatureEntry) (l : List (String × FeatureEntry)) :
    (name, entry) ∈ (assign name entry l).1 := by
  induction l with
  | nil => simp [assign, moveAssign_fst]
  | cons p rest ih =>
    obtain ⟨k, e0⟩ := p
    by_cases hk : k = name
    · simp [assign, hk, moveAssign_fst]
    · simp only [assign, hk, if_false]
      exact List.mem_cons_of_mem _ ih

theorem assign_keys (name : String) (entry : FeatureEntry) (l : List (String × FeatureEntry)) :
    (assign name entry l).1.map Prod.fst =
      if name ∈ l.map Prod.fst then l.map Prod.fst else l.map Prod.fst ++ [name] := by
  induction l with
  | nil => simp [assign]
  | cons p rest ih =>
    obtain ⟨k, e0⟩ := p
    by_cases hk : k = name
    · simp [assign, hk]
    · have hk1 : ¬ name = k := fun h => hk h.symm
      simp only [assign, hk, if_false, List.map_cons, ih, List.mem_cons, hk1, false_or]
      split <;> simp

theorem assign_nodup (name : String) (entry : FeatureEntry) (l : List (String × FeatureEntry))
    (hnd : (l.map Prod.fst).Nodup) : ((assign name entry l).1.map Prod.fst).Nodup := by
  rw [assign_keys]
  split
  · exact hnd
  · rename_i h
    rw [List.nodup_append]
    refine ⟨hnd, by simp, ?_⟩
    intro a ha hb
    simp only [List.mem_singleton] at hb
    exact h (hb ▸ ha)

theorem assign_joined (name : String) (entry old : FeatureEntry) (th : JThread)
    (l : List (String × FeatureEntry)) (hnd : (l.map Prod.fst).Nodup)
    (hmem : (name, old) ∈ l) (hthread : old.thread = some th) :
    th.request_stop ∈ (assign name entry l).2 := by
  induction l with
  | nil => simp at hmem
  | cons p rest ih =>
    obtain ⟨k, e0⟩ := p
    simp only [List.map_cons, List.nodup_cons] at hnd
    obtain ⟨hk, hrest⟩ := hnd
    simp only [List.mem_cons, Prod.mk.injEq] at hmem
    rcases hmem with ⟨rfl, rfl⟩ | hmem
    · simp [assign, moveAssign_snd _ _ th hthread]
    · have hne : k ≠ name := by
        rintro rfl
        exact hk (List.mem_map_of_mem Prod.fst hmem)
      simp only [assign, hne, if_false]
      exact ih hrest hmem

theorem Register_keys_nodup (s : State) (name : String) (entry : FeatureEntry)
    (hkeys : s.keys.Nodup) : (Register s name entry).keys.Nodup :=
  assign_nodup name entry s.features hkeys

/-- The sweep of a state in which the entry under `name` is threaded with a tick
callback and its flag reads true against `lastState = false`. -/
theorem UpdateAll_turn_on (s : State) (name : String) (e : FeatureEntry)
    (f : Nat) (tk : Callback) (hkeys : s.keys.Nodup) (hret : UpdateAllThrows s = false)
    (hmem : (name, e) ∈ s.features) (hthreaded : e.threaded = true)
    (htick : e.onTick = some tk) (hflag : e.flag = some f) (hcur : s.flags f = true)
    (hlast : e.lastState = false) :
    ∃ tid, s.nextTid ≤ tid ∧
      (name, { e with lastState := true, thread := some ⟨tid, tk, e.tickRate, false⟩ }) ∈
        (UpdateAll s).features ∧
      (UpdateAll s).runningCount name = 1 ∧
      ∀ old, e.thread = some old → old.request_stop ∈ (UpdateAll s).joined := by
  rcases sweep_entry s.flags s.features s.nextTid name e hkeys hmem with
    ⟨t1, hle, hin, _, hjoin, hok⟩ | ⟨hth, _, _⟩
  · obtain ⟨hentry, hold⟩ := updateEntry_turn_on s.flags name e t1 f tk hthreaded htick hflag
      hcur hlast (hok hret)
    rw [hentry] at hin
    refine ⟨t1, hle, hin, ?_, ?_⟩
    · rw [runningCount_of_mem (UpdateAll s) name _ (by rw [UpdateAll_keys]; exact hkeys) hin]
      simp [JThread.running]
    · intro old ho
      exact List.mem_append_right _ (hjoin _ (hold old ho))
  · unfold UpdateAllThrows at hret
    rw [hret] at hth
    exact absurd hth (by decide)

/-- An entry whose flag reads as its `lastState` is kept by the sweep, which makes no
call for it, whether the sweep returns or is left by an exception. -/
theorem UpdateAll_steady_entry (s : State) (name : String) (e : FeatureEntry)
    (hkeys : s.keys.Nodup) (hmem : (name, e) ∈ s.features)
    (hsame : ∀ f, e.flag = some f → s.flags f = e.lastState) :
    (name, e) ∈ (UpdateAll s).features ∧
      (UpdateAll s).log.filter (fun c => decide (c.name = name)) =
        s.log.filter (fun c => decide (c.name = name)) := by
  have hlog : (UpdateAll s).log = s.log ++ (sweep s.flags s.features s.nextTid).calls := rfl
  rw [hlog, List.filter_append]
  rcases sweep_entry s.flags s.features s.nextTid name e hkeys hmem with
    ⟨t1, _, hin, hcalls, _, _⟩ | ⟨_, hin, hcalls⟩
  · rw [updateEntry_steady s.flags name e t1 hsame] at hin hcalls
    exact ⟨hin, by rw [hcalls, List.append_nil]⟩
  · exact ⟨hin, by rw [hcalls, List.append_nil]⟩

theorem run_steady_entry (ops : List HostOp) (s : State) (name : String) (e : FeatureEntry)
    (hkeys : s.keys.Nodup) (hmem : (name, e) ∈ s.features)
    (hsame : ∀ f, e.flag = some f → s.flags f = e.lastState)
    (hops : ∀ g v, HostOp.store g v ∈ ops → e.flag ≠ some g) :
    (name, e) ∈ (run s ops).features ∧
      (run s ops).log.filter (fun c => decide (c.name = name)) =
        s.log.filter (fun c => decide (c.name = name)) := by
  induction ops generalizing s with
  | nil => exact ⟨hmem, rfl⟩
  | cons op rest ih =>
    have hrest : ∀ g v, HostOp.store g v ∈ rest → e.flag ≠ some g :=
      fun g v h => hops g v (List.mem_cons_of_mem _ h)
    cases op with
    | store g v =>
      have hg : e.flag ≠ some g := hops g v (List.mem_cons_self _ _)
      have hsame1 : ∀ f, e.flag = some f → (s.store g v).flags f = e.lastState := by
        intro f hf
        have hfg : f ≠ g := by
          rintro rfl
          exact hg hf
        simp [State.store, hfg, hsame f hf]
      exact ih (s.store g v) hkeys hmem hsame1 hrest
    | updateAll =>
      obtain ⟨hin, hlog⟩ := UpdateAll_steady_entry s name e hkeys hmem hsame
      have h := ih (UpdateAll s) (by rw [UpdateAll_keys]; exact hkeys) hin hsame hrest
      exact ⟨h.1, h.2.trans hlog⟩


theorem stopThread_running (e : FeatureEntry) : JThread.running e.stopThread.thread = false := by
  cases h : e.thread <;> simp [FeatureEntry.stopThread, h, JThread.running, JThread.request_stop]

theorem stopThread_stopThread (e : FeatureEntry) : e.stopThread.stopThread = e.stopThread := by
  cases h : e.thread <;> simp [FeatureEntry.stopThread, h, JThread.request_stop]

theorem stopThread_of_stopped (e : FeatureEntry)
    (h : ∀ th, e.thread = some th → th.stopRequested = true) : e.stopThread = e := by
  cases hth : e.thread with
  | none => simp [FeatureEntry.stopThread, hth]
  | some th =>
    have h1 := h th hth
    have h2 : th.request_stop = th := by
      cases th
      simp only [JThread.request_stop] at h1 ⊢
      simp only [h1]
    cases e
    simp only [FeatureEntry.stopThread] at hth ⊢
    subst hth
    simp [h2]


theorem updateEntry_returns (fl : Nat → Bool) (n : String) (e : FeatureEntry) (t : Nat)
    (h : ∀ cb, e.onToggle = some cb → cb.throws = false) :
    (updateEntry fl n e t).threw = false := by
  cases hflag : e.flag with
  | none => simp [updateEntry, hflag]
  | some f =>
    by_cases hsame : fl f = e.lastState
    · simp [updateEntry, hflag, hsame]
    · cases hcb : e.onToggle with
      | none => simp [updateEntry, hflag, hsame, hcb]
      | some cb => simp [updateEntry, hflag, hsame, hcb, h cb hcb]

/-- The sweep returns when no registered toggle callback throws. -/
theorem UpdateAll_returns (s : State)
    (h : ∀ p ∈ s.features, ∀ cb, p.2.onToggle = some cb → cb.throws = false) :
    UpdateAllThrows s = false := by
  unfold UpdateAllThrows
  generalize s.nextTid = t
  generalize s.features = l at h
  induction l generalizing t with
  | nil => rfl
  | cons p rest ih =>
    obtain ⟨k, e0⟩ := p
    have h0 := updateEntry_returns s.flags k e0 t (h (k, e0) (List.mem_cons_self _ _))
    simp only [sweep, h0, Bool.false_eq_true, if_false]
    exact ih _ (fun p hp => h p (List.mem_cons_of_mem _ hp))

/-! ## The claims -/

/-- C2: when `UpdateAll` returns, a threaded entry with a tick callback whose flag
reads true while `lastState` is false holds a fresh thread with no stop requested,
bound to its `onTick` and `tickRate`; it is the one running thread under that name,
and a thread held before has been stop-requested and joined. -/
theorem C2_turn_on_starts_one_thread (s : State) (name : String) (e : FeatureEntry)
    (f : Nat) (tk : Callback) (hkeys : s.keys.Nodup) (hret : UpdateAllThrows s = false)
    (hmem : (name, e) ∈ s.features) (hthreaded : e.threaded = true)
    (htick : e.onTick = some tk) (hflag : e.flag = some f) (hcur : s.flags f = true)
    (hlast : e.lastState = false) :
    ∃ tid, s.nextTid ≤ tid ∧
      (name, { e with lastState := true, thread := some ⟨tid, tk, e.tickRate, false⟩ }) ∈
        (UpdateAll s).features ∧
      (UpdateAll s).runningCount name = 1 ∧
      ∀ old, e.thread = some old → old.request_stop ∈ (UpdateAll s).joined :=
  UpdateAll_turn_on s name e f tk hkeys hret hmem hthreaded htick hflag hcur hlast

/-- C3 (amended): when `UpdateAll` returns, a threaded entry that holds a thread and
whose flag reads false while `lastState` is true has had a stop requested on that
thread; the handle still holds the thread, and no thread under that name is running. -/
theorem C3_turn_off_requests_stop (s : State) (name : String) (e : FeatureEntry)
    (f : Nat) (th : JThread) (hkeys : s.keys.Nodup) (hret : UpdateAllThrows s = false)
    (hmem : (name, e) ∈ s.features) (hthreaded : e.threaded = true)
    (hthread : e.thread = some th) (hflag : e.flag = some f) (hcur : s.flags f = false)
    (hlast : e.lastState = true) :
    (name, { e with lastState := false, thread := some th.request_stop }) ∈
        (UpdateAll s).features ∧
      th.request_stop.stopRequested = true ∧
      (UpdateAll s).runningCount name = 0 := by
  rcases sweep_entry s.flags s.features s.nextTid name e hkeys hmem with
    ⟨t1, _, hin, _, _, hok⟩ | ⟨hth, _, _⟩
  · rw [updateEntry_turn_off s.flags name e t1 f th hthreaded hthread hflag hcur hlast
      (hok hret)] at hin
    refine ⟨hin, rfl, ?_⟩
    rw [runningCount_of_mem (UpdateAll s) name _ (by rw [UpdateAll_keys]; exact hkeys) hin]
    simp [JThread.running, JThread.request_stop]
  · unfold UpdateAllThrows at hret
    rw [hret] at hth
    exact absurd hth (by decide)

/-- C4 (amended): when the first `UpdateAll` returns, a second one with no flag
written in between makes no toggle call and leaves the whole state (every entry with
its `lastState` and thread handle, the joined threads, the thread counter, the log)
as the first call returned it; and any sweep, returning or not, leaves an entry whose
flag reads as `lastState` as it was and makes no call for it. -/
theorem C4_UpdateAll_idempotent (s : State) (hkeys : s.keys.Nodup) :
    (UpdateAllThrows s = false →
        UpdateAll (UpdateAll s) = UpdateAll s ∧ UpdateAllCalls (UpdateAll s) = [] ∧
          UpdateAllThrows (UpdateAll s) = false) ∧
      ∀ name e, (name, e) ∈ s.features → (∀ f, e.flag = some f → s.flags f = e.lastState) →
        (name, e) ∈ (UpdateAll s).features ∧
          (UpdateAllCalls s).filter (fun c => decide (c.name = name)) = [] := by
  constructor
  · intro hret
    have hst := sweep_steady s.flags (sweep s.flags s.features s.nextTid).features
      (sweep s.flags s.features s.nextTid).nextTid (sweep_settles _ _ _ hret)
    refine ⟨?_, ?_, ?_⟩
    · simp [UpdateAll, hst]
    · simp [UpdateAllCalls, UpdateAll, hst]
    · simp [UpdateAllThrows, UpdateAll, hst]
  · intro name e hmem hsame
    rcases sweep_entry s.flags s.features s.nextTid name e hkeys hmem with
      ⟨t1, _, hin, hcalls, _, _⟩ | ⟨_, hin, hcalls⟩
    · rw [updateEntry_steady s.flags name e t1 hsame] at hin hcalls
      exact ⟨hin, hcalls⟩
    · exact ⟨hin, hcalls⟩

/-- C5 (amended): a feature whose flag cell reads as the registered entry's
`lastState` at registration (false for an entry of the public constructor) and is
never written afterwards stays as registered through any number of sweeps and writes
to other cells: its handle is never replaced and no toggle call is logged for it. -/
theorem C5_unwritten_flag_stays_quiet (s : State) (name : String) (entry : FeatureEntry)
    (ops : List HostOp) (hkeys : s.keys.Nodup)
    (hsame : ∀ f, entry.flag = some f → s.flags f = entry.lastState)
    (hops : ∀ g v, HostOp.store g v ∈ ops → entry.flag ≠ some g) :
    (name, entry) ∈ (run (Register s name entry) ops).features ∧
      (run (Register s name entry) ops).log.filter (fun c => decide (c.name = name)) =
        s.log.filter (fun c => decide (c.name = name)) :=
  run_steady_entry ops (Register s name entry) name entry
    (Register_keys_nodup s name entry hkeys) (assign_mem name entry s.features) hsame hops

/-- C7: after `Register` the mapping holds the given entry under `name`, and only that
one; the names stay distinct; a thread the overwritten entry held has been
stop-requested and joined. -/
theorem C7_Register_overwrites (s : State) (name : String) (entry : FeatureEntry)
    (hkeys : s.keys.Nodup) :
    (name, entry) ∈ (Register s name entry).features ∧
      (∀ e1, (name, e1) ∈ (Register s name entry).features → e1 = entry) ∧
      (Register s name entry).keys.Nodup ∧
      (Register s name entry).keys.count name = 1 ∧
      ∀ old th, (name, old) ∈ s.features → old.thread = some th →
        th.request_stop ∈ (Register s name entry).joined ∧
          th.request_stop.stopRequested = true := by
  have hnd := Register_keys_nodup s name entry hkeys
  have hin : (name, entry) ∈ (Register s name entry).features := assign_mem name entry s.features
  refine ⟨hin, ?_, hnd, ?_, ?_⟩
  · intro e1 h1
    exact mem_unique_of_nodup _ name entry e1 hnd hin h1
  · exact List.count_eq_one_of_mem hnd (List.mem_map_of_mem Prod.fst hin)
  · intro old th hmem hthread
    exact ⟨List.mem_append_right _ (assign_joined name entry old th s.features hkeys hmem hthread),
      rfl⟩

/-- C8 (amended): re-registering a name whose thread is running, with a new threaded
entry of the public constructor that has a tick callback, leaves no running thread
under that name when `Register` returns (the old one has been stop-requested and
joined, and `Register` starts none); the next `UpdateAll` that returns and reads the
new entry's flag as true starts the new entry's thread, the only running one. -/
theorem C8_reregister_stops_then_sweep_starts (s : State) (n : String) (old : FeatureEntry)
    (th : JThread) (flagRef : Option Nat) (toggle : Option Callback) (tick : Callback)
    (interval : Nat) (hkeys : s.keys.Nodup) (hmem : (n, old) ∈ s.features)
    (hthread : old.thread = some th) (hrun : th.stopRequested = false) :
    s.runningCount n = 1 ∧
      (Register s n (FeatureEntry.new flagRef toggle true (some tick) interval)).runningCount n
        = 0 ∧
      th.request_stop ∈
        (Register s n (FeatureEntry.new flagRef toggle true (some tick) interval)).joined ∧
      ∀ f, flagRef = some f → s.flags f = true →
        UpdateAllThrows (Register s n (FeatureEntry.new flagRef toggle true (some tick) interval))
          = false →
        (UpdateAll (Register s n
            (FeatureEntry.new flagRef toggle true (some tick) interval))).runningCount n = 1 ∧
          ∃ tid, (n, { FeatureEntry.new flagRef toggle true (some tick) interval with
                        lastState := true, thread := some ⟨tid, tick, interval, false⟩ }) ∈
            (UpdateAll (Register s n
              (FeatureEntry.new flagRef toggle true (some tick) interval))).features := by
  have hnd := Register_keys_nodup s n (FeatureEntry.new flagRef toggle true (some tick) interval)
    hkeys
  have hin := assign_mem n (FeatureEntry.new flagRef toggle true (some tick) interval) s.features
  refine ⟨?_, ?_, ?_, ?_⟩
  · rw [runningCount_of_mem s n old hkeys hmem]
    simp [hthread, JThread.running, hrun]
  · rw [runningCount_of_mem _ n _ hnd hin]
    simp [FeatureEntry.new, JThread.running]
  · exact List.mem_append_right _
      (assign_joined n _ old th s.features hkeys hmem hthread)
  · intro f hf hcur hret
    subst hf
    obtain ⟨tid, _, hmem1, hcount, _⟩ :=
      UpdateAll_turn_on (Register s n (FeatureEntry.new (some f) toggle true (some tick) interval))
        n (FeatureEntry.new (some f) toggle true (some tick) interval) f tick hnd hret hin
        rfl rfl rfl hcur rfl
    exact ⟨hcount, tid, hmem1⟩

/-- C9: after `StopAllThreads` every thread an entry held has a stop requested: the
entry holds the same thread with the request set, no held thread is without one, and
no name has a running thread. -/
theorem C9_StopAllThreads_requests_stop (s : State) :
    (∀ name e th, (name, e) ∈ s.features → e.thread = some th →
        (name, { e with thread := some th.request_stop }) ∈ (StopAllThreads s).features) ∧
      (∀ name e th, (name, e) ∈ (StopAllThreads s).features → e.thread = some th →
        th.stopRequested = true) ∧
      ∀ name, (StopAllThreads s).runningCount name = 0 := by
  refine ⟨?_, ?_, ?_⟩
  · intro name e th hmem hth
    simp only [StopAllThreads, List.mem_map]
    refine ⟨(name, e), hmem, ?_⟩
    simp [FeatureEntry.stopThread, hth]
  · intro name e th hmem hth
    simp only [StopAllThreads, List.mem_map] at hmem
    obtain ⟨p, _, hp⟩ := hmem
    have hrun := stopThread_running p.2
    have he : p.2.stopThread = e := (Prod.mk.inj hp).2
    rw [he, hth] at hrun
    simpa [JThread.running] using hrun
  · intro name
    unfold State.runningCount
    rw [List.length_eq_zero, List.filter_eq_nil_iff]
    intro p hp
    have hp1 := List.mem_of_mem_filter hp
    simp only [StopAllThreads, List.mem_map] at hp1
    obtain ⟨q, _, hq⟩ := hp1
    have : p.2 = q.2.stopThread := by rw [← hq]
    rw [this, stopThread_running]
    decide

/-- C10: `StopAllThreads` is idempotent; it changes nothing when every held thread
already has a stop requested (and so when no thread is held or nothing is
registered); and it makes no callback call. -/
theorem C10_StopAllThreads_idempotent (s : State) :
    StopAllThreads (StopAllThreads s) = StopAllThreads s ∧
      ((∀ name e th, (name, e) ∈ s.features → e.thread = some th → th.stopRequested = true) →
        StopAllThreads s = s) ∧
      (StopAllThreads s).log = s.log := by
  refine ⟨?_, ?_, rfl⟩
  · simp [StopAllThreads, List.map_map, Function.comp_def, stopThread_stopThread]
  · intro h
    have hmap : s.features.map (fun p => (p.1, p.2.stopThread)) = s.features := by
      conv_rhs => rw [← List.map_id s.features]
      apply List.map_congr_left
      intro p hp
      obtain ⟨k, e⟩ := p
      simp only [id]
      rw [stopThread_of_stopped e (fun th hth => h k e th hp hth)]
    simp [StopAllThreads, hmap]

/-! ## The claims at the example driver's states -/

/-- C2 at the first sweep of the example: `FeatureB` gets its one running thread. -/
theorem C2_witness :
    exOn.keys.Nodup ∧ UpdateAllThrows exOn = false ∧ ("FeatureB", exB) ∈ exOn.features ∧
      exOn.flags 1 = true ∧
      ∃ tid, exOn.nextTid ≤ tid ∧
        ("FeatureB", { exB with lastState := true,
                                thread := some ⟨tid, exTickB, exB.tickRate, false⟩ }) ∈
          (UpdateAll exOn).features ∧
        (UpdateAll exOn).runningCount "FeatureB" = 1 ∧
        ∀ old, exB.thread = some old → old.request_stop ∈ (UpdateAll exOn).joined :=
  ⟨by decide, by decide, by decide, by decide,
    C2_turn_on_starts_one_thread exOn "FeatureB" exB 1 exTickB (by decide) (by decide)
      (by decide) rfl rfl rfl (by decide) rfl⟩

/-- C3 as stated fails: `FeatureB` is threaded, holds a running thread, and its flag
reads false against `lastState = true`; after the sweep its handle still holds the
thread, so it is not absent. -/
theorem C3_counterexample :
    exOff.keys.Nodup ∧ UpdateAllThrows exOff = false ∧
      ("FeatureB", exBRunning) ∈ exOff.features ∧ exBRunning.threaded = true ∧
      exBRunning.thread = some exThreadB ∧ exBRunning.flag = some 1 ∧
      exOff.flags 1 = false ∧ exBRunning.lastState = true ∧
      ¬ ∀ e1, ("FeatureB", e1) ∈ (UpdateAll exOff).features → e1.thread = none := by
  refine ⟨by decide, by decide, by decide, rfl, rfl, rfl, by decide, rfl, ?_⟩
  intro h
  have h1 := h { exBRunning with lastState := false, thread := some exThreadB.request_stop }
    (by decide)
  exact absurd h1 (by decide)

/-- C3 (amended) at the sweep after `FeatureB` was cleared: its thread is stop-requested and kept. -/
theorem C3_witness :
    exOff.keys.Nodup ∧ UpdateAllThrows exOff = false ∧
      ("FeatureB", exBRunning) ∈ exOff.features ∧ exOff.flags 1 = false ∧
      ("FeatureB", { exBRunning with lastState := false,
                                     thread := some exThreadB.request_stop }) ∈
        (UpdateAll exOff).features ∧
      exThreadB.request_stop.stopRequested = true ∧
      (UpdateAll exOff).runningCount "FeatureB" = 0 :=
  ⟨by decide, by decide, by decide, by decide,
    C3_turn_off_requests_stop exOff "FeatureB" exBRunning 1 exThreadB (by decide) (by decide)
      (by decide) rfl rfl rfl (by decide) rfl⟩

/-- C4 (amended) at the example: the second sweep changes nothing, and a sweep with all cells false keeps `FeatureA`. -/
theorem C4_witness :
    exOn.keys.Nodup ∧ UpdateAllThrows exOn = false ∧
      UpdateAll (UpdateAll exOn) = UpdateAll exOn ∧ UpdateAllCalls (UpdateAll exOn) = [] ∧
      ("FeatureA", exA) ∈ (UpdateAll exRegistered).features :=
  ⟨by decide, by decide,
    ((C4_UpdateAll_idempotent exOn (by decide)).1 (by decide)).1,
    ((C4_UpdateAll_idempotent exOn (by decide)).1 (by decide)).2.1,
    ((C4_UpdateAll_idempotent exRegistered (by decide)).2 "FeatureA" exA (by decide)
      (by decide)).1⟩

/-- C5 as stated fails: registered while their cells hold true and never written
afterwards, `FeatureA` has its toggle callback called by the first sweep, and
`FeatureB` has a thread started by it. -/
theorem C5_counterexample :
    (run (Register (State.init fun _ => true) "FeatureA" exA) [HostOp.updateAll]).log.filter
        (fun c => decide (c.name = "FeatureA")) = [⟨"FeatureA", exToggleA, true⟩] ∧
      (Register (State.init fun _ => true) "FeatureB" exB).runningCount "FeatureB" = 0 ∧
      (run (Register (State.init fun _ => true) "FeatureB" exB)
        [HostOp.updateAll]).runningCount "FeatureB" = 1 := by
  decide

/-- C5 (amended) at the example: `FeatureA`, registered with its cell false, stays quiet through two sweeps. -/
theorem C5_witness :
    (State.init fun _ => false).keys.Nodup ∧
      (∀ f, exA.flag = some f → (State.init fun _ => false).flags f = exA.lastState) ∧
      (∀ g v, HostOp.store g v ∈ exOps → exA.flag ≠ some g) ∧
      ("FeatureA", exA) ∈ (run (Register (State.init fun _ => false) "FeatureA" exA) exOps).features ∧
      (run (Register (State.init fun _ => false) "FeatureA" exA) exOps).log.filter
          (fun c => decide (c.name = "FeatureA")) =
        (State.init fun _ => false).log.filter (fun c => decide (c.name = "FeatureA")) :=
  have hsame : ∀ f, exA.flag = some f → (State.init fun _ => false).flags f = exA.lastState :=
    fun _ _ => rfl
  have hops : ∀ g v, HostOp.store g v ∈ exOps → exA.flag ≠ some g := by
    intro g v h
    simp only [exOps, List.mem_cons, HostOp.store.injEq, List.mem_singleton, reduceCtorEq,
      false_or, or_false, List.not_mem_nil] at h
    rw [h.1]
    decide
  ⟨by decide, hsame, hops,
    C5_unwritten_flag_stays_quiet (State.init fun _ => false) "FeatureA" exA exOps (by decide)
      hsame hops⟩

/-- C7 at the example: registering `FeatureB` again stores the new entry and joins the old thread. -/
theorem C7_witness :
    exRunning.keys.Nodup ∧ ("FeatureB", exBRunning) ∈ exRunning.features ∧
      ("FeatureB", exB) ∈ (Register exRunning "FeatureB" exB).features ∧
      (Register exRunning "FeatureB" exB).keys.count "FeatureB" = 1 ∧
      exThreadB.request_stop ∈ (Register exRunning "FeatureB" exB).joined :=
  ⟨by decide, by decide,
    (C7_Register_overwrites exRunning "FeatureB" exB (by decide)).1,
    (C7_Register_overwrites exRunning "FeatureB" exB (by decide)).2.2.2.1,
    ((C7_Register_overwrites exRunning "FeatureB" exB (by decide)).2.2.2.2 exBRunning exThreadB
      (by decide) rfl).1⟩

/-- C8 as stated fails: `FeatureB` has a running thread, and right after it is
registered again with a threaded entry that has a tick callback, no thread is
running under that name. -/
theorem C8_counterexample :
    exRunning.runningCount "FeatureB" = 1 ∧ exB.threaded = true ∧ exB.onTick = some exTickB ∧
      (Register exRunning "FeatureB" exB).runningCount "FeatureB" ≠ 1 := by
  decide

/-- C8 (amended) at the example: no running thread right after registering `FeatureB` again, one after the next sweep. -/
theorem C8_witness :
    exRunning.keys.Nodup ∧ ("FeatureB", exBRunning) ∈ exRunning.features ∧
      exThreadB.stopRequested = false ∧ exRunning.flags 1 = true ∧
      (Register exRunning "FeatureB" exB).runningCount "FeatureB" = 0 ∧
      exThreadB.request_stop ∈ (Register exRunning "FeatureB" exB).joined ∧
      (UpdateAll (Register exRunning "FeatureB" exB)).runningCount "FeatureB" = 1 :=
  ⟨by decide, by decide, rfl, by decide,
    (C8_reregister_stops_then_sweep_starts exRunning "FeatureB" exBRunning exThreadB (some 1)
      (some exToggleB) exTickB 500 (by decide) (by decide) rfl rfl).2.1,
    (C8_reregister_stops_then_sweep_starts exRunning "FeatureB" exBRunning exThreadB (some 1)
      (some exToggleB) exTickB 500 (by decide) (by decide) rfl rfl).2.2.1,
    ((C8_reregister_stops_then_sweep_starts exRunning "FeatureB" exBRunning exThreadB (some 1)
      (some exToggleB) exTickB 500 (by decide) (by decide) rfl rfl).2.2.2 1 rfl (by decide)
        (by decide)).1⟩

/-- C10 at the example: nothing to stop after registration, and stopping twice equals stopping once. -/
theorem C10_witness :
    (∀ name e th, (name, e) ∈ exRegistered.features → e.thread = some th →
        th.stopRequested = true) ∧
      StopAllThreads exRegistered = exRegistered ∧
      StopAllThreads (StopAllThreads exRunning) = StopAllThreads exRunning :=
  have h : ∀ name e th, (name, e) ∈ exRegistered.features → e.thread = some th →
      th.stopRequested = true := by
    intro name e th hmem hth
    have hm : (name, e) = ("FeatureA", exA) ∨ (name, e) = ("FeatureB", exB) := by
      simpa [exRegistered, Register, assign, State.init, moveAssign_fst] using hmem
    rcases hm with hm | hm <;> cases hm <;> cases hth
  ⟨h, (C10_StopAllThreads_idempotent exRegistered).2.1 h,
    (C10_StopAllThreads_idempotent exRunning).1⟩

/-! ## Lemmas for the frame of the operations and for a sweep cut in two -/

theorem restartThread_fixed (e : FeatureEntry) (c : Bool) (t : Nat) :
    (restartThread e c t).1.fixed = e.fixed := by
  unfold restartThread
  split
  · dsimp only
    split <;> rfl
  · rfl

theorem updateEntry_fixed (fl : Nat → Bool) (n : String) (e : FeatureEntry) (t : Nat) :
    (updateEntry fl n e t).entry.fixed = e.fixed := by
  unfold updateEntry
  split
  · rfl
  · dsimp only
    split
    · split
      · split
        · rfl
        · exact restartThread_fixed _ _ _
      · exact restartThread_fixed _ _ _
    · rfl

theorem sweep_fixed (fl : Nat → Bool) (l : List (String × FeatureEntry)) (t : Nat) :
    (sweep fl l t).features.map (fun p => (p.1, p.2.fixed)) =
      l.map (fun p => (p.1, p.2.fixed)) := by
  induction l generalizing t with
  | nil => simp [sweep]
  | cons p rest ih =>
    obtain ⟨k, e0⟩ := p
    simp only [sweep]
    split
    · simp [updateEntry_fixed]
    · simp [updateEntry_fixed, ih]

theorem stopThread_fixed (e : FeatureEntry) : e.stopThread.fixed = e.fixed := by
  cases h : e.thread <;> simp [FeatureEntry.stopThread, h, FeatureEntry.fixed]

theorem StopAllThreads_keys (s : State) : (StopAllThreads s).keys = s.keys := by
  simp [State.keys, StopAllThreads, List.map_map, Function.comp_def]

theorem sweep_length (fl : Nat → Bool) (l : List (String × FeatureEntry)) (t : Nat) :
    (sweep fl l t).features.length = l.length := by
  have h := congrArg List.length (sweep_keys fl l t)
  simpa using h

/-- A sweep over `pre ++ post` is the sweep over `pre` followed, unless that one was
left by an exception, by the sweep over `post`. -/
theorem sweep_append (fl : Nat → Bool) (pre post : List (String × FeatureEntry)) (t : Nat) :
    sweep fl (pre ++ post) t =
      if (sweep fl pre t).threw = true then
        ⟨(sweep fl pre t).features ++ post, (sweep fl pre t).calls, (sweep fl pre t).joined,
          (sweep fl pre t).nextTid, true⟩
      else
        ⟨(sweep fl pre t).features ++ (sweep fl post (sweep fl pre t).nextTid).features,
          (sweep fl pre t).calls ++ (sweep fl post (sweep fl pre t).nextTid).calls,
          (sweep fl pre t).joined ++ (sweep fl post (sweep fl pre t).nextTid).joined,
          (sweep fl post (sweep fl pre t).nextTid).nextTid,
          (sweep fl post (sweep fl pre t).nextTid).threw⟩ := by
  induction pre generalizing t with
  | nil => simp [sweep]
  | cons p rest ih =>
    obtain ⟨k, e0⟩ := p
    by_cases hth : (updateEntry fl k e0 t).threw = true
    · simp [sweep, hth]
    · simp only [List.cons_append, sweep, hth, Bool.false_eq_true, if_false, List.append_eq]
      rw [ih]
      by_cases h2 : (sweep fl rest (updateEntry fl k e0 t).nextTid).threw = true
      · simp [h2]
      · simp [h2]

theorem assign_filter_other (name k : String) (entry : FeatureEntry)
    (l : List (String × FeatureEntry)) (hk : k ≠ name) :
    (assign name entry l).1.filter (fun p => decide (p.1 = k)) =
      l.filter (fun p => decide (p.1 = k)) := by
  induction l with
  | nil =>
    have : ¬ name = k := fun h => hk h.symm
    simp [assign, List.filter_cons, this]
  | cons p rest ih =>
    obtain ⟨k0, e0⟩ := p
    by_cases h0 : k0 = name
    · have hnk : ¬ name = k := fun h => hk h.symm
      subst h0
      simp [assign, List.filter_cons, hnk]
    · simp only [assign, h0, if_false, List.filter_cons, ih]

theorem assign_mem_other (name k : String) (entry e : FeatureEntry)
    (l : List (String × FeatureEntry)) (hk : k ≠ name) :
    (k, e) ∈ (assign name entry l).1 ↔ (k, e) ∈ l := by
  have h := assign_filter_other name k entry l hk
  have h1 : (k, e) ∈ (assign name entry l).1.filter (fun p => decide (p.1 = k)) ↔
      (k, e) ∈ l.filter (fun p => decide (p.1 = k)) := by rw [h]
  simpa [List.mem_filter] using h1

theorem assign_joined_origin (name : String) (entry : FeatureEntry)
    (l : List (String × FeatureEntry)) :
    ∀ t ∈ (assign name entry l).2,
      ∃ old th, (name, old) ∈ l ∧ old.thread = some th ∧ t = th.request_stop := by
  induction l with
  | nil =>
    intro t ht
    simp [assign, FeatureEntry.moveAssign, JThread.moveAssign, FeatureEntry.default] at ht
  | cons p rest ih =>
    obtain ⟨k0, e0⟩ := p
    intro t ht
    by_cases h0 : k0 = name
    · subst h0
      simp only [assign, if_true, FeatureEntry.moveAssign] at ht
      cases hth : e0.thread with
      | none => simp [JThread.moveAssign, hth] at ht
      | some th =>
        simp only [JThread.moveAssign, hth, List.mem_singleton] at ht
        exact ⟨e0, th, List.mem_cons_self _ _, hth, ht⟩
    · simp only [assign, h0, if_false] at ht
      obtain ⟨old, th, hmem, hth, heq⟩ := ih t ht
      exact ⟨old, th, List.mem_cons_of_mem _ hmem, hth, heq⟩

/-! ## Lemmas about sequences of operations -/

theorem updateEntry_threadless (fl : Nat → Bool) (n : String) (e : FeatureEntry) (t : Nat)
    (hthread : e.thread = none) (hno : e.threaded = false ∨ e.onTick = none) :
    ∃ last, (updateEntry fl n e t).entry = { e with lastState := last } := by
  obtain ⟨flag, last, tog, tk, thr, rate, thread⟩ := e
  simp only at hthread hno
  subst hthread
  have hrestart : ∀ (tg : Option Callback) (v : Bool),
      (restartThread ⟨flag, v, tg, tk, thr, rate, none⟩ v t).1 =
        ⟨flag, v, tg, tk, thr, rate, none⟩ := by
    intro tg v
    rcases hno with h | h
    · simp [restartThread, h]
    · cases thr <;> cases v <;> simp [restartThread, h]
  cases flag with
  | none => exact ⟨last, by simp [updateEntry]⟩
  | some f =>
    by_cases hsame : fl f = last
    · exact ⟨last, by simp [updateEntry, hsame]⟩
    · refine ⟨fl f, ?_⟩
      cases tog with
      | none => simp [updateEntry, hsame, hrestart]
      | some cb =>
        by_cases hth : cb.throws = true
        · simp [updateEntry, hsame, hth]
        · simp [updateEntry, hsame, hth, hrestart]

theorem UpdateAll_threadless (s : State) (n : String) (e : FeatureEntry)
    (hkeys : s.keys.Nodup) (hmem : (n, e) ∈ s.features)
    (hthread : e.thread = none) (hno : e.threaded = false ∨ e.onTick = none) :
    ∃ last, (n, { e with lastState := last }) ∈ (UpdateAll s).features := by
  rcases sweep_entry s.flags s.features s.nextTid n e hkeys hmem with
    ⟨t1, _, hin, _, _, _⟩ | ⟨_, hin, _⟩
  · obtain ⟨last, hlast⟩ := updateEntry_threadless s.flags n e t1 hthread hno
    rw [hlast] at hin
    exact ⟨last, hin⟩
  · exact ⟨e.lastState, hin⟩

theorem StopAllThreads_threadless (s : State) (n : String) (e : FeatureEntry)
    (hmem : (n, e) ∈ s.features) (hthread : e.thread = none) :
    (n, e) ∈ (StopAllThreads s).features := by
  simp only [StopAllThreads, List.mem_map]
  exact ⟨(n, e), hmem, by simp [FeatureEntry.stopThread, hthread]⟩

theorem exec_keys (ops : List Op) (s : State) (hops : ∀ op ∈ ops, op.isRegister = false) :
    (exec s ops).keys = s.keys := by
  induction ops generalizing s with
  | nil => rfl
  | cons op rest ih =>
    have hrest : ∀ op ∈ rest, op.isRegister = false :=
      fun o ho => hops o (List.mem_cons_of_mem _ ho)
    have hop := hops op (List.mem_cons_self _ _)
    cases op with
    | store f v => exact ih (s.store f v) hrest
    | register name entry => simp [Op.isRegister] at hop
    | updateAll => exact (ih (UpdateAll s) hrest).trans (UpdateAll_keys s)
    | stopAll => exact (ih (StopAllThreads s) hrest).trans (StopAllThreads_keys s)

/-- An entry without a thread that is unthreaded or has no tick callback never gets a
thread: whatever is written and swept, only its `lastState` changes. -/
theorem exec_threadless (ops : List Op) (s : State) (n : String) (e : FeatureEntry)
    (hkeys : s.keys.Nodup) (hmem : (n, e) ∈ s.features)
    (hthread : e.thread = none) (hno : e.threaded = false ∨ e.onTick = none)
    (hops : ∀ op ∈ ops, op.isRegister = false) :
    ∃ last, (n, { e with lastState := last }) ∈ (exec s ops).features := by
  induction ops generalizing s e with
  | nil => exact ⟨e.lastState, hmem⟩
  | cons op rest ih =>
    have hrest : ∀ op ∈ rest, op.isRegister = false :=
      fun o ho => hops o (List.mem_cons_of_mem _ ho)
    have hop := hops op (List.mem_cons_self _ _)
    cases op with
    | store f v => exact ih (s.store f v) e hkeys hmem hthread hno hrest
    | register name entry => simp [Op.isRegister] at hop
    | updateAll =>
      obtain ⟨l1, h1⟩ := UpdateAll_threadless s n e hkeys hmem hthread hno
      obtain ⟨l2, h2⟩ := ih (UpdateAll s) { e with lastState := l1 }
        (by rw [UpdateAll_keys]; exact hkeys) h1 hthread hno hrest
      exact ⟨l2, h2⟩
    | stopAll =>
      exact ih (StopAllThreads s) e (by rw [StopAllThreads_keys]; exact hkeys)
        (StopAllThreads_threadless s n e hmem hthread) hthread hno hrest

theorem onToggle_of_fixed (l1 l2 : List (String × FeatureEntry))
    (h : l1.map (fun p => (p.1, p.2.fixed)) = l2.map (fun p => (p.1, p.2.fixed)))
    (hq : ∀ p ∈ l2, ∀ c, p.2.onToggle = some c → c.throws = false) :
    ∀ p ∈ l1, ∀ c, p.2.onToggle = some c → c.throws = false := by
  intro p hp c hc
  have hp1 : (p.1, p.2.fixed) ∈ l2.map (fun p => (p.1, p.2.fixed)) := by
    rw [← h]
    exact List.mem_map_of_mem (fun p => (p.1, p.2.fixed)) hp
  obtain ⟨q, hq1, hq2⟩ := List.mem_map.mp hp1
  have hfx : q.2.fixed = p.2.fixed := (Prod.mk.inj hq2).2
  have hto : q.2.onToggle = p.2.onToggle := by
    have := congrArg (fun x => x.2.1) hfx
    simpa [FeatureEntry.fixed] using this
  exact hq q hq1 c (hto.trans hc)

theorem assign_mem_cases (name : String) (entry : FeatureEntry)
    (l : List (String × FeatureEntry)) :
    ∀ p ∈ (assign name entry l).1, p ∈ l ∨ p = (name, entry) := by
  induction l with
  | nil => simp [assign, moveAssign_fst]
  | cons q rest ih =>
    obtain ⟨k0, e0⟩ := q
    intro p hp
    by_cases h0 : k0 = name
    · simp only [assign, h0, if_true, moveAssign_fst, List.mem_cons] at hp
      rcases hp with hp | hp
      · exact Or.inr hp
      · exact Or.inl (List.mem_cons_of_mem _ hp)
    · simp only [assign, h0, if_false, List.mem_cons] at hp
      rcases hp with hp | hp
      · exact Or.inl (hp ▸ List.mem_cons_self _ _)
      · rcases ih p hp with h | h
        · exact Or.inl (List.mem_cons_of_mem _ h)
        · exact Or.inr h

/-- When no registered toggle callback throws, none does after any writes, sweeps and
stops. -/
theorem exec_quiet (ops : List Op) (s : State)
    (hq : ∀ p ∈ s.features, ∀ c, p.2.onToggle = some c → c.throws = false)
    (hops : ∀ op ∈ ops, op.isRegister = false) :
    ∀ p ∈ (exec s ops).features, ∀ c, p.2.onToggle = some c → c.throws = false := by
  induction ops generalizing s with
  | nil => exact hq
  | cons op rest ih =>
    have hrest : ∀ op ∈ rest, op.isRegister = false :=
      fun o ho => hops o (List.mem_cons_of_mem _ ho)
    have hop := hops op (List.mem_cons_self _ _)
    cases op with
    | store f v => exact ih (s.store f v) hq hrest
    | register name entry => simp [Op.isRegister] at hop
    | updateAll =>
      exact ih (UpdateAll s) (onToggle_of_fixed _ _ (sweep_fixed _ _ _) hq) hrest
    | stopAll =>
      refine ih (StopAllThreads s) (onToggle_of_fixed _ _ ?_ hq) hrest
      simp [StopAllThreads, List.map_map, Function.comp_def, stopThread_fixed]

theorem updateEntry_joined_stopped (fl : Nat → Bool) (n : String) (e : FeatureEntry) (t : Nat) :
    ∀ j ∈ (updateEntry fl n e t).joined, j.stopRequested = true := by
  have hrestart : ∀ (e1 : FeatureEntry) (c : Bool),
      ∀ j ∈ (restartThread e1 c t).2.1, j.stopRequested = true := by
    intro e1 c j hj
    unfold restartThread at hj
    split at hj
    · dsimp only at hj
      split at hj
      · cases hth : e1.thread with
        | none => simp [JThread.moveAssign, hth] at hj
        | some th =>
          simp only [JThread.moveAssign, hth, Option.map_some', List.mem_singleton] at hj
          rw [hj]
          rfl
      · simp at hj
    · simp at hj
  intro j hj
  unfold updateEntry at hj
  split at hj
  · simp at hj
  · dsimp only at hj
    split at hj
    · split at hj
      · split at hj
        · simp at hj
        · exact hrestart _ _ j hj
      · exact hrestart _ _ j hj
    · simp at hj

theorem sweep_joined_stopped (fl : Nat → Bool) (l : List (String × FeatureEntry)) (t : Nat) :
    ∀ j ∈ (sweep fl l t).joined, j.stopRequested = true := by
  induction l generalizing t with
  | nil => simp [sweep]
  | cons p rest ih =>
    obtain ⟨k, e0⟩ := p
    intro j hj
    simp only [sweep] at hj
    split at hj
    · exact updateEntry_joined_stopped fl k e0 t j hj
    · simp only [List.mem_append] at hj
      rcases hj with hj | hj
      · exact updateEntry_joined_stopped fl k e0 t j hj
      · exact ih _ j hj

theorem runningCount_le_one (s : State) (n : String) (hkeys : s.keys.Nodup) :
    s.runningCount n ≤ 1 := by
  unfold State.runningCount
  refine le_trans (List.length_filter_le _ _) ?_
  have hnd : ((s.features.filter (fun p => decide (p.1 = n))).map Prod.fst).Nodup :=
    (List.filter_sublist s.features).map Prod.fst |>.nodup hkeys
  have hall : ∀ k ∈ (s.features.filter (fun p => decide (p.1 = n))).map Prod.fst, k = n := by
    intro k hk
    obtain ⟨p, hp, rfl⟩ := List.mem_map.mp hk
    simpa using (List.mem_filter.mp hp).2
  have hlen : ((s.features.filter (fun p => decide (p.1 = n))).map Prod.fst).length ≤ 1 := by
    generalize (s.features.filter (fun p => decide (p.1 = n))).map Prod.fst = ks at hnd hall
    match ks, hnd, hall with
    | [], _, _ => simp
    | [_], _, _ => simp
    | a :: b :: _, hnd, hall =>
      have ha := hall a (by simp)
      have hb := hall b (by simp)
      simp [ha, hb] at hnd
  simpa using hlen

/-- What holds in every state the host can reach: the names are distinct and every
thread that was dropped from a handle has its stop requested. -/
theorem exec_invariant (ops : List Op) (s : State) (hkeys : s.keys.Nodup)
    (hjoined : ∀ t ∈ s.joined, t.stopRequested = true) :
    (exec s ops).keys.Nodup ∧ ∀ t ∈ (exec s ops).joined, t.stopRequested = true := by
  induction ops generalizing s with
  | nil => exact ⟨hkeys, hjoined⟩
  | cons op rest ih =>
    cases op with
    | store f v => exact ih (s.store f v) hkeys hjoined
    | register name entry =>
      refine ih (Register s name entry) (Register_keys_nodup s name entry hkeys) ?_
      intro t ht
      simp only [Register, List.mem_append] at ht
      rcases ht with ht | ht
      · exact hjoined t ht
      · obtain ⟨_, th, _, _, heq⟩ := assign_joined_origin name entry s.features t ht
        rw [heq]
        rfl
    | updateAll =>
      refine ih (UpdateAll s) (by rw [UpdateAll_keys]; exact hkeys) ?_
      intro t ht
      simp only [UpdateAll, List.mem_append] at ht
      rcases ht with ht | ht
      · exact hjoined t ht
      · exact sweep_joined_stopped _ _ _ t ht
    | stopAll =>
      exact ih (StopAllThreads s) (by rw [StopAllThreads_keys]; exact hkeys) hjoined

theorem updateEntry_no_toggle (fl : Nat → Bool) (n : String) (e : FeatureEntry) (t : Nat)
    (hcb : e.onToggle = none) :
    (updateEntry fl n e t).calls = [] ∧ (updateEntry fl n e t).threw = false := by
  cases hflag : e.flag with
  | none => simp [updateEntry, hflag]
  | some f =>
    by_cases hsame : fl f = e.lastState
    · simp [updateEntry, hflag, hsame]
    · simp [updateEntry, hflag, hsame, hcb]

/-- An entry with no thread, no toggle callback and no way to get a thread stays
silent: only its `lastState` changes and no call is logged under its name. -/
theorem exec_inert (ops : List Op) (s : State) (n : String) (e : FeatureEntry)
    (hkeys : s.keys.Nodup) (hmem : (n, e) ∈ s.features) (hcb : e.onToggle = none)
    (hthread : e.thread = none) (hno : e.threaded = false ∨ e.onTick = none)
    (hops : ∀ op ∈ ops, op.isRegister = false) :
    (exec s ops).log.filter (fun c => decide (c.name = n)) =
      s.log.filter (fun c => decide (c.name = n)) := by
  induction ops generalizing s e with
  | nil => rfl
  | cons op rest ih =>
    have hrest : ∀ op ∈ rest, op.isRegister = false :=
      fun o ho => hops o (List.mem_cons_of_mem _ ho)
    have hop := hops op (List.mem_cons_self _ _)
    cases op with
    | store g v => exact ih (s.store g v) e hkeys hmem hcb hthread hno hrest
    | register name entry => simp [Op.isRegister] at hop
    | updateAll =>
      have hlog : (UpdateAll s).log.filter (fun c => decide (c.name = n)) =
          s.log.filter (fun c => decide (c.name = n)) := by
        have h0 : (UpdateAll s).log = s.log ++ (sweep s.flags s.features s.nextTid).calls := rfl
        rw [h0, List.filter_append]
        rcases sweep_entry s.flags s.features s.nextTid n e hkeys hmem with
          ⟨t1, _, _, hcalls, _, _⟩ | ⟨_, _, hcalls⟩
        · rw [hcalls, (updateEntry_no_toggle s.flags n e t1 hcb).1, List.append_nil]
        · rw [hcalls, List.append_nil]
      obtain ⟨l1, h1⟩ := UpdateAll_threadless s n e hkeys hmem hthread hno
      exact (ih (UpdateAll s) { e with lastState := l1 }
        (by rw [UpdateAll_keys]; exact hkeys) h1 hcb hthread hno hrest).trans hlog
    | stopAll =>
      exact ih (StopAllThreads s) e (by rw [StopAllThreads_keys]; exact hkeys)
        (StopAllThreads_threadless s n e hmem hthread) hcb hthread hno hrest

theorem Register_quiet (s : State) (name : String) (entry : FeatureEntry)
    (hq : ∀ p ∈ s.features, ∀ c, p.2.onToggle = some c → c.throws = false)
    (he : ∀ c, entry.onToggle = some c → c.throws = false) :
    ∀ p ∈ (Register s name entry).features, ∀ c, p.2.onToggle = some c → c.throws = false := by
  intro p hp c hc
  rcases assign_mem_cases name entry s.features p hp with h | h
  · exact hq p h c hc
  · subst h
    exact he c hc

/-! ## Lemmas about the effects of the loop body and about the tick thread -/

theorem threadEffects_onThread (e : FeatureEntry) (c : Bool) (t : Nat) :
    ∀ x ∈ threadEffects e c t, x.onThread = true := by
  intro x hx
  unfold threadEffects at hx
  split at hx
  · simp only [List.mem_append] at hx
    rcases hx with hx | hx
    · split at hx
      · simp only [List.mem_singleton] at hx
        rw [hx]; rfl
      · simp at hx
    · split at hx
      · simp only [List.mem_cons, List.mem_singleton, List.not_mem_nil, or_false] at hx
        rcases hx with hx | hx <;> (rw [hx]; rfl)
      · simp at hx
  · simp at hx

theorem threadEffects_apply (e : FeatureEntry) (c : Bool) (t : Nat) (js : List JThread) :
    (threadEffects e c t).foldl Effect.apply (e, js) =
      ((restartThread e c t).1, js ++ (restartThread e c t).2.1) := by
  obtain ⟨flag, last, tog, tk, thr, rate, thread⟩ := e
  cases thr
  · simp [threadEffects, restartThread]
  · cases thread <;> cases c <;> cases tk <;>
      simp [threadEffects, restartThread, Effect.apply, JThread.moveAssign, JThread.request_stop]

theorem entryEffects_apply (fl : Nat → Bool) (n : String) (e : FeatureEntry) (t : Nat)
    (js : List JThread) :
    (entryEffects fl e t).foldl Effect.apply (e, js) =
      ((updateEntry fl n e t).entry, js ++ (updateEntry fl n e t).joined) := by
  cases hflag : e.flag with
  | none => simp [entryEffects, updateEntry, hflag]
  | some f =>
    by_cases hsame : fl f = e.lastState
    · simp [entryEffects, updateEntry, hflag, hsame]
    · cases hcb : e.onToggle with
      | none =>
        simp only [entryEffects, updateEntry, hflag, hcb, bne_iff_ne, ne_eq, hsame,
          not_false_eq_true, if_true, List.foldl_cons, Effect.apply]
        exact threadEffects_apply _ _ _ _
      | some cb =>
        by_cases hth : cb.throws = true
        · simp [entryEffects, updateEntry, hflag, hcb, hsame, hth, Effect.apply]
        · simp only [entryEffects, updateEntry, hflag, hcb, bne_iff_ne, ne_eq, hsame,
            not_false_eq_true, if_true, hth, Bool.false_eq_true, if_false, List.foldl_cons,
            Effect.apply]
          exact threadEffects_apply _ _ _ _

/-- The shape of the effects of the loop body: nothing, or the store to `lastState`,
then the call of the toggle callback if there is one, then effects on the thread. -/
theorem entryEffects_shape (fl : Nat → Bool) (e : FeatureEntry) (t : Nat) :
    entryEffects fl e t = [] ∨
      (∃ v cb rest, e.onToggle = some cb ∧
        entryEffects fl e t = Effect.setLastState v :: Effect.callToggle cb v :: rest ∧
        ∀ x ∈ rest, x.onThread = true) ∨
      (∃ v rest, entryEffects fl e t = Effect.setLastState v :: rest ∧
        ∀ x ∈ rest, x.onThread = true) := by
  cases hflag : e.flag with
  | none => left; simp [entryEffects, hflag]
  | some f =>
    by_cases hsame : fl f = e.lastState
    · left; simp [entryEffects, hflag, hsame]
    · right
      cases hcb : e.onToggle with
      | none =>
        right
        refine ⟨fl f, threadEffects { e with lastState := fl f } (fl f) t, ?_,
          threadEffects_onThread _ _ _⟩
        simp [entryEffects, hflag, hsame, hcb]
      | some cb =>
        left
        by_cases hth : cb.throws = true
        · exact ⟨fl f, cb, [], rfl, by simp [entryEffects, hflag, hsame, hcb, hth], by simp⟩
        · refine ⟨fl f, cb, threadEffects { e with lastState := fl f } (fl f) t, rfl, ?_,
            threadEffects_onThread _ _ _⟩
          simp [entryEffects, hflag, hsame, hcb, hth]

theorem split_at_callToggle (pre post rest : List Effect) (a : Effect) (cb c1 : Callback)
    (v v1 : Bool) (ha1 : ∀ c w, a ≠ Effect.callToggle c w)
    (hrest : ∀ x ∈ rest, x.onThread = true)
    (h : a :: Effect.callToggle cb v :: rest = pre ++ Effect.callToggle c1 v1 :: post) :
    pre = [a] ∧ c1 = cb ∧ v1 = v ∧ post = rest := by
  cases pre with
  | nil =>
    simp only [List.nil_append, List.cons.injEq] at h
    exact absurd h.1 (ha1 c1 v1)
  | cons p pre1 =>
    simp only [List.cons_append, List.cons.injEq] at h
    obtain ⟨hp, h2⟩ := h
    cases pre1 with
    | nil =>
      simp only [List.nil_append, List.cons.injEq, Effect.callToggle.injEq] at h2
      exact ⟨by rw [hp], h2.1.1.symm, h2.1.2.symm, h2.2.symm⟩
    | cons p2 pre2 =>
      simp only [List.cons_append, List.cons.injEq] at h2
      have hmem : Effect.callToggle c1 v1 ∈ rest := by
        rw [h2.2]
        simp
      have := hrest _ hmem
      simp [Effect.onThread] at this

theorem no_callToggle_of_onThread (pre post rest : List Effect) (a : Effect) (c1 : Callback)
    (v1 : Bool) (ha1 : ∀ c w, a ≠ Effect.callToggle c w)
    (hrest : ∀ x ∈ rest, x.onThread = true)
    (h : a :: rest = pre ++ Effect.callToggle c1 v1 :: post) : False := by
  have hmem : Effect.callToggle c1 v1 ∈ a :: rest := by
    rw [h]
    simp
  simp only [List.mem_cons] at hmem
  rcases hmem with hm | hm
  · exact ha1 c1 v1 hm.symm
  · have := hrest _ hm
    simp [Effect.onThread] at this

theorem TickTask.run_nil (j : JThread) (k : TickTask) : TickTask.run j [] k = k := rfl

theorem TickTask.run_cons (j : JThread) (b : Bool) (stops : List Bool) (k : TickTask) :
    TickTask.run j (b :: stops) k = TickTask.run j stops (TickTask.step j b k) := rfl

theorem TickTask.run_append (j : JThread) (xs ys : List Bool) (k : TickTask) :
    TickTask.run j (xs ++ ys) k = TickTask.run j ys (TickTask.run j xs k) := by
  simp [TickTask.run, List.foldl_append]

theorem TickTask.run_ended (j : JThread) (stops : List Bool) (k : TickTask)
    (h : k.pc = TickPc.exited ∨ k.pc = TickPc.terminated) : TickTask.run j stops k = k := by
  induction stops with
  | nil => rfl
  | cons b rest ih =>
    rw [TickTask.run_cons]
    have : TickTask.step j b k = k := by
      rcases h with h | h <;> simp [TickTask.step, h]
    rw [this, ih]

/-- Three statements of a thread that is not asked to stop and whose callback returns
make one round of the loop: the test, the call, the wait. -/
theorem TickTask.round (j : JThread) (evs : List TickEvent) (hok : j.tick.throws = false) :
    TickTask.run j [false, false, false] ⟨TickPc.check, evs⟩ =
      ⟨TickPc.check, evs ++ [TickEvent.tick, TickEvent.wait j.rate]⟩ := by
  simp [TickTask.run, TickTask.step, hok]

theorem TickTask.rounds (j : JThread) (n : Nat) (hok : j.tick.throws = false) :
    TickTask.run j (List.replicate (3 * n) false) TickTask.start =
      ⟨TickPc.check, tickRounds j.rate n⟩ := by
  induction n with
  | zero => rfl
  | succ n ih =>
    have h3 : List.replicate (3 * (n + 1)) false =
        List.replicate (3 * n) false ++ [false, false, false] := by
      have : 3 * (n + 1) = 3 * n + 3 := by ring
      rw [this, List.replicate_add]
      rfl
    rw [h3, TickTask.run_append, ih, TickTask.round j _ hok]
    rfl

/-- Whatever the stop token answers, what a thread has done is a number of full
rounds, followed by one more call when it stands before the wait or was ended by an
exception of that call. -/
theorem TickTask.events_shape (j : JThread) (stops : List Bool) (k : TickTask)
    (h : ∃ n, (k.events = tickRounds j.rate n ∧
          (k.pc = TickPc.check ∨ k.pc = TickPc.call ∨ k.pc = TickPc.exited)) ∨
        (k.events = tickRounds j.rate n ++ [TickEvent.tick] ∧
          (k.pc = TickPc.sleep ∨ k.pc = TickPc.terminated))) :
    ∃ n, (TickTask.run j stops k).events = tickRounds j.rate n ∨
      (TickTask.run j stops k).events = tickRounds j.rate n ++ [TickEvent.tick] := by
  induction stops generalizing k with
  | nil =>
    obtain ⟨n, h | h⟩ := h
    · exact ⟨n, Or.inl h.1⟩
    · exact ⟨n, Or.inr h.1⟩
  | cons b rest ih =>
    rw [TickTask.run_cons]
    apply ih
    obtain ⟨n, ⟨hev, hpc⟩ | ⟨hev, hpc⟩⟩ := h
    · rcases hpc with hpc | hpc | hpc
      · refine ⟨n, Or.inl ?_⟩
        cases b <;> simp [TickTask.step, hpc, hev]
      · refine ⟨n, Or.inr ?_⟩
        cases hth : j.tick.throws <;> simp [TickTask.step, hpc, hev, hth]
      · refine ⟨n, Or.inl ?_⟩
        simp [TickTask.step, hpc, hev]
    · rcases hpc with hpc | hpc
      · refine ⟨n + 1, Or.inl ?_⟩
        simp [TickTask.step, hpc, hev, tickRounds]
      · refine ⟨n, Or.inr ?_⟩
        simp [TickTask.step, hpc, hev]

/-- Once the stop is requested a thread makes at most the call it stands before, and
it has ended after three statements. -/
theorem TickTask.stop_bound (j : JThread) (k : TickTask) (n : Nat) :
    (TickTask.run j (List.replicate n true) k).ticks ≤ k.ticks + 1 ∧
      (3 ≤ n → (TickTask.run j (List.replicate n true) k).pc = TickPc.exited ∨
        (TickTask.run j (List.replicate n true) k).pc = TickPc.terminated) := by
  obtain ⟨pc, evs⟩ := k
  match n with
  | 0 => simp [TickTask.run]
  | 1 =>
    cases pc <;> cases hth : j.tick.throws <;>
      simp [TickTask.run, TickTask.step, TickTask.ticks, hth, List.count_append]
  | 2 =>
    cases pc <;> cases hth : j.tick.throws <;>
      simp [TickTask.run, TickTask.step, TickTask.ticks, hth, List.count_append,
        List.replicate]
  | m + 3 =>
    have h3 : List.replicate (m + 3) true = [true, true, true] ++ List.replicate m true := by
      rw [Nat.add_comm, List.replicate_add]
      rfl
    rw [h3, TickTask.run_append]
    have hend : (TickTask.run j [true, true, true] ⟨pc, evs⟩).pc = TickPc.exited ∨
        (TickTask.run j [true, true, true] ⟨pc, evs⟩).pc = TickPc.terminated := by
      cases pc <;> cases hth : j.tick.throws <;>
        simp [TickTask.run, TickTask.step, hth]
    rw [TickTask.run_ended j _ _ hend]
    refine ⟨?_, fun _ => hend⟩
    cases pc <;> cases hth : j.tick.throws <;>
      simp [TickTask.run, TickTask.step, TickTask.ticks, hth, List.count_append]

/-! ## The claims on exceptions, frames and skipped entries -/

/-- C11 (amended): when the toggle callback of an entry throws at its transition,
`UpdateAll` is left by that exception. The entries before it in the iteration order
have been swept as usual, the entry itself has `lastState` set and its callback
called, with its thread handle untouched, and the entries after it are left as they
were, with no call made for them; the registered names are the same. -/
theorem C11_throwing_toggle_ends_sweep (s : State) (pre post : List (String × FeatureEntry))
    (name : String) (e : FeatureEntry) (f : Nat) (cb : Callback)
    (hfeat : s.features = pre ++ (name, e) :: post)
    (hpre : (sweep s.flags pre s.nextTid).threw = false)
    (hflag : e.flag = some f) (hchange : s.flags f ≠ e.lastState)
    (hcb : e.onToggle = some cb) (hthrows : cb.throws = true) :
    UpdateAllThrows s = true ∧
      (UpdateAll s).features =
        (sweep s.flags pre s.nextTid).features ++
          (name, { e with lastState := s.flags f }) :: post ∧
      UpdateAllCalls s = (sweep s.flags pre s.nextTid).calls ++ [⟨name, cb, s.flags f⟩] ∧
      (UpdateAll s).keys = s.keys := by
  have hstep : updateEntry s.flags name e (sweep s.flags pre s.nextTid).nextTid =
      ⟨{ e with lastState := s.flags f }, [⟨name, cb, s.flags f⟩], [],
        (sweep s.flags pre s.nextTid).nextTid, true⟩ := by
    simp [updateEntry, hflag, hchange, hcb, hthrows]
  have hsweep := sweep_append s.flags pre ((name, e) :: post) s.nextTid
  rw [← hfeat] at hsweep
  simp only [hpre, Bool.false_eq_true, if_false, sweep, hstep, if_true] at hsweep
  refine ⟨?_, ?_, ?_, UpdateAll_keys s⟩
  · simp [UpdateAllThrows, hsweep]
  · simp [UpdateAll, hsweep]
  · simp [UpdateAllCalls, hsweep]

/-- C16: `UpdateAll` and `StopAllThreads` keep the registered names and, entry by
entry, the members `flag`, `onToggle`, `onTick`, `threaded` and `tickRate`, and they
leave every flag cell as it is. -/
theorem C16_sweep_and_stop_frame (s : State) :
    ((UpdateAll s).features.map (fun p => (p.1, p.2.fixed)) =
        s.features.map (fun p => (p.1, p.2.fixed)) ∧
      (UpdateAll s).keys = s.keys ∧ (UpdateAll s).flags = s.flags) ∧
    ((StopAllThreads s).features.map (fun p => (p.1, p.2.fixed)) =
        s.features.map (fun p => (p.1, p.2.fixed)) ∧
      (StopAllThreads s).keys = s.keys ∧ (StopAllThreads s).flags = s.flags) := by
  refine ⟨⟨sweep_fixed _ _ _, UpdateAll_keys s, rfl⟩, ⟨?_, StopAllThreads_keys s, rfl⟩⟩
  simp [StopAllThreads, List.map_map, Function.comp_def, stopThread_fixed]

/-- C19: an entry whose flag pointer is unset is skipped by `UpdateAll`: the entry
stays as it is, and the calls, the joined threads, the thread counter, the way the
sweep ends and the other entries are those of the sweep over the mapping without it. -/
theorem C19_unset_flag_is_skipped (s : State) (pre post : List (String × FeatureEntry))
    (name : String) (e : FeatureEntry)
    (hfeat : s.features = pre ++ (name, e) :: post) (hflag : e.flag = none) :
    (UpdateAll s).features =
        (UpdateAll { s with features := pre ++ post }).features.take pre.length ++
          (name, e) :: (UpdateAll { s with features := pre ++ post }).features.drop pre.length ∧
      UpdateAllCalls s = UpdateAllCalls { s with features := pre ++ post } ∧
      UpdateAllThrows s = UpdateAllThrows { s with features := pre ++ post } ∧
      (UpdateAll s).joined = (UpdateAll { s with features := pre ++ post }).joined ∧
      (UpdateAll s).nextTid = (UpdateAll { s with features := pre ++ post }).nextTid ∧
      (UpdateAll s).log = (UpdateAll { s with features := pre ++ post }).log := by
  have hlen := sweep_length s.flags pre s.nextTid
  have hskip : ∀ t, updateEntry s.flags name e t = ⟨e, [], [], t, false⟩ :=
    fun t => updateEntry_steady s.flags name e t (by simp [hflag])
  have h1 := sweep_append s.flags pre ((name, e) :: post) s.nextTid
  have h0 := sweep_append s.flags pre post s.nextTid
  rw [← hfeat] at h1
  by_cases hth : (sweep s.flags pre s.nextTid).threw = true
  · simp only [hth, if_true] at h1 h0
    simp [UpdateAll, UpdateAllCalls, UpdateAllThrows, h1, h0, ← hlen]
  · simp only [hth, if_false, sweep, hskip, Bool.false_eq_true, List.nil_append] at h1 h0
    simp [UpdateAll, UpdateAllCalls, UpdateAllThrows, h1, h0, ← hlen]

/-- C20: `Register` changes the mapping at its name only: the entries under every
other name are the same, with the same running threads, the log, the cells and the
thread counter are untouched, and the only thread it joins is the one the
overwritten entry held. -/
theorem C20_Register_frame (s : State) (n : String) (entry : FeatureEntry) :
    (∀ k e, k ≠ n → ((k, e) ∈ (Register s n entry).features ↔ (k, e) ∈ s.features)) ∧
      (∀ k, k ≠ n → (Register s n entry).runningCount k = s.runningCount k) ∧
      (Register s n entry).log = s.log ∧ (Register s n entry).flags = s.flags ∧
      (Register s n entry).nextTid = s.nextTid ∧
      ∀ t ∈ (Register s n entry).joined,
        t ∈ s.joined ∨ ∃ old th, (n, old) ∈ s.features ∧ old.thread = some th ∧
          t = th.request_stop := by
  refine ⟨?_, ?_, rfl, rfl, rfl, ?_⟩
  · intro k e hk
    exact assign_mem_other n k entry e s.features hk
  · intro k hk
    simp only [State.runningCount, Register, assign_filter_other n k entry s.features hk]
  · intro t ht
    simp only [Register, List.mem_append] at ht
    rcases ht with ht | ht
    · exact Or.inl ht
    · exact Or.inr (assign_joined_origin n entry s.features t ht)

/-! ## The claims on sequences of operations -/

/-- C15: a threaded entry registered with neither callback is inert through any
sequence of writes, sweeps and stops: only its `lastState` changes, it never holds a
thread, no call is logged under its name, the loop body never throws for it, and
when no other registered toggle callback throws every sweep returns. -/
theorem C15_no_callbacks_is_inert (s : State) (name : String) (flagRef : Option Nat)
    (interval : Nat) (ops : List Op) (hkeys : s.keys.Nodup)
    (hops : ∀ op ∈ ops, op.isRegister = false) :
    (∃ last, (name, { FeatureEntry.new flagRef none true none interval with
                        lastState := last }) ∈
        (exec (Register s name (FeatureEntry.new flagRef none true none interval)) ops).features) ∧
      (exec (Register s name (FeatureEntry.new flagRef none true none interval))
        ops).runningCount name = 0 ∧
      (exec (Register s name (FeatureEntry.new flagRef none true none interval))
          ops).log.filter (fun c => decide (c.name = name)) =
        s.log.filter (fun c => decide (c.name = name)) ∧
      (∀ fl last t, (updateEntry fl name
          { FeatureEntry.new flagRef none true none interval with lastState := last } t).threw
            = false) ∧
      ((∀ p ∈ s.features, ∀ c, p.2.onToggle = some c → c.throws = false) →
        UpdateAllThrows
          (exec (Register s name (FeatureEntry.new flagRef none true none interval)) ops)
            = false) := by
  generalize hE : FeatureEntry.new flagRef none true none interval = E
  have hthread : E.thread = none := by rw [← hE]; rfl
  have htick : E.onTick = none := by rw [← hE]; rfl
  have htog : E.onToggle = none := by rw [← hE]; rfl
  have hnd := Register_keys_nodup s name E hkeys
  have hin : (name, E) ∈ (Register s name E).features := assign_mem name E s.features
  obtain ⟨last, hmem⟩ := exec_threadless ops (Register s name E) name E hnd hin hthread
    (Or.inr htick) hops
  refine ⟨⟨last, hmem⟩, ?_, ?_, ?_, ?_⟩
  · rw [runningCount_of_mem _ name _ (by rw [exec_keys ops _ hops]; exact hnd) hmem]
    simp [hthread, JThread.running]
  · exact exec_inert ops (Register s name E) name E hnd hin htog hthread (Or.inr htick) hops
  · intro fl last t
    exact (updateEntry_no_toggle fl name { E with lastState := last } t htog).2
  · intro hq
    apply UpdateAll_returns
    apply exec_quiet ops _ _ hops
    exact Register_quiet s name E hq (by intro c hc; rw [htog] at hc; cases hc)

/-- C17: in every state reached from the empty registry by `Register`, writes to
cells, `UpdateAll` and `StopAllThreads`, the names are distinct, every name has at
most one running thread, and every thread dropped from a handle had its stop
requested before it was joined, so none outlives its handle running. -/
theorem C17_at_most_one_running_thread (flags : Nat → Bool) (ops : List Op) :
    (exec (State.init flags) ops).keys.Nodup ∧
      (∀ name, (exec (State.init flags) ops).runningCount name ≤ 1) ∧
      ∀ t ∈ (exec (State.init flags) ops).joined, t.stopRequested = true := by
  have h := exec_invariant ops (State.init flags) (by simp [State.init, State.keys])
    (by simp [State.init])
  exact ⟨h.1, fun name => runningCount_le_one _ name h.1, h.2⟩

/-! ## The claims on the order of effects and on the tick thread -/

/-- C13 (amended): a tick thread calls before it waits. While no stop is requested
and the callback returns, each round of the loop is the test of the stop token, then
the call of the callback, then the wait of one period, so the first call comes right
after the start, before any wait; and under every course of the stop token what the
thread has done is a run of call-then-wait rounds, possibly with one more call. -/
theorem C13_tick_thread_calls_then_waits (j : JThread) (n : Nat)
    (hok : j.tick.throws = false) :
    TickTask.run j (List.replicate (3 * n) false) TickTask.start =
        ⟨TickPc.check, tickRounds j.rate n⟩ ∧
      TickTask.run j (List.replicate (3 * n + 1) false) TickTask.start =
        ⟨TickPc.call, tickRounds j.rate n⟩ ∧
      TickTask.run j (List.replicate (3 * n + 2) false) TickTask.start =
        ⟨TickPc.sleep, tickRounds j.rate n ++ [TickEvent.tick]⟩ ∧
      ∀ stops, ∃ m,
        (TickTask.run j stops TickTask.start).events = tickRounds j.rate m ∨
          (TickTask.run j stops TickTask.start).events =
            tickRounds j.rate m ++ [TickEvent.tick] := by
  have h0 := TickTask.rounds j n hok
  refine ⟨h0, ?_, ?_, ?_⟩
  · rw [List.replicate_add, TickTask.run_append, h0]
    simp [TickTask.run, TickTask.step]
  · rw [List.replicate_add, TickTask.run_append, h0]
    simp [TickTask.run, TickTask.step, hok]
  · intro stops
    exact TickTask.events_shape j stops TickTask.start
      ⟨0, Or.inl ⟨rfl, Or.inl rfl⟩⟩

/-- C14: a tick thread that finds the stop requested at the test of its loop leaves
the loop without a further call and stays ended whatever follows; a thread whose stop
is requested before its first test makes no call at all; and from any point on, once
the stop is requested, the thread makes at most the one call it stands before and
has ended after three statements. -/
theorem C14_cooperative_cancellation (j : JThread) (k : TickTask) (stops : List Bool)
    (n : Nat) :
    (k.pc = TickPc.check →
        TickTask.run j (true :: stops) k = { k with pc := TickPc.exited }) ∧
      (TickTask.run j (List.replicate n true) TickTask.start).ticks = 0 ∧
      (1 ≤ n → TickTask.run j (List.replicate n true) TickTask.start = ⟨TickPc.exited, []⟩) ∧
      (TickTask.run j (List.replicate n true) k).ticks ≤ k.ticks + 1 ∧
      (3 ≤ n → (TickTask.run j (List.replicate n true) k).pc = TickPc.exited ∨
        (TickTask.run j (List.replicate n true) k).pc = TickPc.terminated) := by
  have hstart : ∀ m, TickTask.run j (List.replicate (m + 1) true) TickTask.start =
      ⟨TickPc.exited, []⟩ := by
    intro m
    rw [List.replicate_succ, TickTask.run_cons]
    have : TickTask.step j true TickTask.start = ⟨TickPc.exited, []⟩ := by
      simp [TickTask.step, TickTask.start]
    rw [this]
    exact TickTask.run_ended j _ _ (Or.inl rfl)
  refine ⟨?_, ?_, ?_, (TickTask.stop_bound j k n).1, (TickTask.stop_bound j k n).2⟩
  · intro hpc
    rw [TickTask.run_cons]
    have : TickTask.step j true k = { k with pc := TickPc.exited } := by
      simp [TickTask.step, hpc]
    rw [this]
    exact TickTask.run_ended j _ _ (Or.inl rfl)
  · cases n with
    | zero => rfl
    | succ m => rw [hstart m]; rfl
  · intro hn
    obtain ⟨m, rfl⟩ : ∃ m, n = m + 1 := ⟨n - 1, by omega⟩
    exact hstart m

/-- C18: the effects of the loop body, applied in order, give what the sweep does to
the entry. At an observed transition of an entry with a toggle callback they are the
store of the new value to `lastState`, then the one call of the callback with that
value, then (when the callback returns) the effects on the thread; and wherever the
callback is called, exactly the store of its argument precedes it, so the entry holds
that value when it runs, and everything after it is a stop request, the start of the
new thread or its move into the handle. -/
theorem C18_order_inside_transition (fl : Nat → Bool) (name : String) (e : FeatureEntry)
    (tid : Nat) :
    (entryEffects fl e tid).foldl Effect.apply (e, []) =
        ((updateEntry fl name e tid).entry, (updateEntry fl name e tid).joined) ∧
      (∀ f cb, e.flag = some f → fl f ≠ e.lastState → e.onToggle = some cb →
        entryEffects fl e tid =
            Effect.setLastState (fl f) :: Effect.callToggle cb (fl f) ::
              (if cb.throws = true then []
               else threadEffects { e with lastState := fl f } (fl f) tid) ∧
          (updateEntry fl name e tid).calls = [⟨name, cb, fl f⟩]) ∧
      ∀ pre cb v post, entryEffects fl e tid = pre ++ Effect.callToggle cb v :: post →
        pre = [Effect.setLastState v] ∧
          (pre.foldl Effect.apply (e, [])).1.lastState = v ∧
          ∀ x ∈ post, x.onThread = true := by
  refine ⟨?_, ?_, ?_⟩
  · have h := entryEffects_apply fl name e tid []
    simpa using h
  · intro f cb hflag hchange hcb
    constructor
    · simp [entryEffects, hflag, hchange, hcb]
    · rw [updateEntry_calls fl name e tid f cb hflag hcb]
      simp [hchange]
  · intro pre cb v post hsplit
    rcases entryEffects_shape fl e tid with h | ⟨v0, cb0, rest, _, h, hrest⟩ | ⟨v0, rest, h, hrest⟩
    · rw [h] at hsplit
      simp at hsplit
    · rw [h] at hsplit
      obtain ⟨hpre, _, hv, hpost⟩ := split_at_callToggle pre post rest _ cb0 cb v0 v
        (by intro c w hc; cases hc) hrest hsplit
      subst hv hpost hpre
      exact ⟨rfl, rfl, hrest⟩
    · rw [h] at hsplit
      exact absurd (no_callToggle_of_onThread pre post rest _ cb v
        (by intro c w hc; cases hc) hrest hsplit) id

/-! ## The later claims at concrete states -/

/-- C11 as stated fails: both entries have a transition, the toggle callback of
`FeatureA` throws, and the sweep ends there: `FeatureB` keeps `lastState = false`,
no call is made for it and no thread is started. -/
theorem C11_counterexample :
    exThrowing.flags 0 ≠ exAThrowing.lastState ∧ exThrowing.flags 1 ≠ exB.lastState ∧
      ("FeatureA", exAThrowing) ∈ exThrowing.features ∧ ("FeatureB", exB) ∈ exThrowing.features ∧
      UpdateAllThrows exThrowing = true ∧
      ("FeatureB", exB) ∈ (UpdateAll exThrowing).features ∧
      (UpdateAllCalls exThrowing).filter (fun c => decide (c.name = "FeatureB")) = [] ∧
      (UpdateAll exThrowing).runningCount "FeatureB" = 0 := by
  decide

/-- C11 (amended) at a sweep where the throwing entry is the second of three. -/
theorem C11_witness :
    exThrowingMid.features = [("FeatureB", exB)] ++ ("FeatureA", exAThrowing) :: [("Inert", exInert)] ∧
      exThrowingMid.flags 0 ≠ exAThrowing.lastState ∧
      UpdateAllThrows exThrowingMid = true ∧
      (UpdateAll exThrowingMid).features =
        (sweep exThrowingMid.flags [("FeatureB", exB)] exThrowingMid.nextTid).features ++
          ("FeatureA", { exAThrowing with lastState := exThrowingMid.flags 0 }) ::
            [("Inert", exInert)] :=
  ⟨rfl, by decide,
    (C11_throwing_toggle_ends_sweep exThrowingMid [("FeatureB", exB)] [("Inert", exInert)]
      "FeatureA" exAThrowing 0 exToggleThrowing rfl (by decide) rfl (by decide) rfl rfl).1,
    (C11_throwing_toggle_ends_sweep exThrowingMid [("FeatureB", exB)] [("Inert", exInert)]
      "FeatureA" exAThrowing 0 exToggleThrowing rfl (by decide) rfl (by decide) rfl rfl).2.1⟩

/-- C13 as stated fails: after the test of the loop and one more statement the
thread has called the callback and has not waited yet. -/
theorem C13_counterexample :
    (TickTask.run exThreadB [false, false] TickTask.start).events = [TickEvent.tick] ∧
      TickEvent.wait exThreadB.rate ∉ (TickTask.run exThreadB [false, false] TickTask.start).events := by
  decide

/-- C13 (amended) at the thread of `FeatureB` after two rounds. -/
theorem C13_witness :
    exThreadB.tick.throws = false ∧
      TickTask.run exThreadB (List.replicate (3 * 2) false) TickTask.start =
        ⟨TickPc.check, [TickEvent.tick, TickEvent.wait 500, TickEvent.tick, TickEvent.wait 500]⟩ :=
  ⟨rfl, (C13_tick_thread_calls_then_waits exThreadB 2 rfl).1⟩

/-- C14 at the thread of `FeatureB`: stopped at the test it ends with no call, and
stopped before a call it makes that one call and ends. -/
theorem C14_witness :
    TickTask.start.pc = TickPc.check ∧
      TickTask.run exThreadB [true, false, false] TickTask.start =
        { TickTask.start with pc := TickPc.exited } ∧
      (TickTask.run exThreadB (List.replicate 5 true) exTaskBeforeCall).ticks ≤
        exTaskBeforeCall.ticks + 1 ∧
      ((TickTask.run exThreadB (List.replicate 5 true) exTaskBeforeCall).pc = TickPc.exited ∨
        (TickTask.run exThreadB (List.replicate 5 true) exTaskBeforeCall).pc =
          TickPc.terminated) :=
  ⟨rfl,
    (C14_cooperative_cancellation exThreadB TickTask.start [false, false] 5).1 rfl,
    (C14_cooperative_cancellation exThreadB exTaskBeforeCall [] 5).2.2.2.1,
    (C14_cooperative_cancellation exThreadB exTaskBeforeCall [] 5).2.2.2.2 (by decide)⟩

/-- C15 at the example with an entry without callbacks added: it stays silent and
every sweep returns. -/
theorem C15_witness :
    exRegistered.keys.Nodup ∧ (∀ op ∈ exOpsInert, op.isRegister = false) ∧
      (exec (Register exRegistered "Inert" (FeatureEntry.new (some 2) none true none 3))
        exOpsInert).runningCount "Inert" = 0 ∧
      (exec (Register exRegistered "Inert" (FeatureEntry.new (some 2) none true none 3))
          exOpsInert).log.filter (fun c => decide (c.name = "Inert")) =
        exRegistered.log.filter (fun c => decide (c.name = "Inert")) ∧
      UpdateAllThrows
        (exec (Register exRegistered "Inert" (FeatureEntry.new (some 2) none true none 3))
          exOpsInert) = false :=
  have hq : ∀ p ∈ exRegistered.features, ∀ c, p.2.onToggle = some c → c.throws = false := by
    intro p hp c hc
    have hm : p = ("FeatureA", exA) ∨ p = ("FeatureB", exB) := by
      simpa [exRegistered, Register, assign, State.init, moveAssign_fst] using hp
    rcases hm with hm | hm <;> subst hm <;> cases hc <;> rfl
  ⟨by decide, by decide,
    (C15_no_callbacks_is_inert exRegistered "Inert" (some 2) 3 exOpsInert (by decide)
      (by decide)).2.1,
    (C15_no_callbacks_is_inert exRegistered "Inert" (some 2) 3 exOpsInert (by decide)
      (by decide)).2.2.1,
    (C15_no_callbacks_is_inert exRegistered "Inert" (some 2) 3 exOpsInert (by decide)
      (by decide)).2.2.2.2 hq⟩

/-- C17 at the sequence set, sweep, clear, sweep, set, sweep for `FeatureB`: one
running thread at the end, and the one thread that was replaced has its stop
requested. -/
theorem C17_witness :
    (exec (State.init fun _ => false) exOpsB).runningCount "FeatureB" = 1 ∧
      (exec (State.init fun _ => false) exOpsB).joined = [exThreadB.request_stop] ∧
      (∀ name, (exec (State.init fun _ => false) exOpsB).runningCount name ≤ 1) ∧
      ∀ t ∈ (exec (State.init fun _ => false) exOpsB).joined, t.stopRequested = true :=
  ⟨by decide, by decide,
    (C17_at_most_one_running_thread (fun _ => false) exOpsB).2.1,
    (C17_at_most_one_running_thread (fun _ => false) exOpsB).2.2⟩

/-- C18 at the first sweep of `FeatureB`: the store, the call, the start of the
thread, its move into the handle. -/
theorem C18_witness :
    exB.flag = some 1 ∧ exOn.flags 1 ≠ exB.lastState ∧ exB.onToggle = some exToggleB ∧
      entryEffects exOn.flags exB 0 =
        Effect.setLastState (exOn.flags 1) :: Effect.callToggle exToggleB (exOn.flags 1) ::
          (if exToggleB.throws = true then []
           else threadEffects { exB with lastState := exOn.flags 1 } (exOn.flags 1) 0) ∧
      entryEffects exOn.flags exB 0 =
        [Effect.setLastState true, Effect.callToggle exToggleB true,
          Effect.startThread exThreadB, Effect.moveAssignThread exThreadB] :=
  ⟨rfl, by decide, rfl,
    ((C18_order_inside_transition exOn.flags "FeatureB" exB 0).2.1 1 exToggleB rfl (by decide)
      rfl).1,
    by decide⟩

/-- C19 at the example with a default-constructed entry between the two features. -/
theorem C19_witness :
    exUnset.features = [("FeatureA", exA)] ++ ("Unset", FeatureEntry.default) :: [("FeatureB", exB)] ∧
      FeatureEntry.default.flag = none ∧
      UpdateAllCalls exUnset =
        UpdateAllCalls { exUnset with features := [("FeatureA", exA)] ++ [("FeatureB", exB)] } ∧
      UpdateAllCalls exUnset =
        [⟨"FeatureA", exToggleA, true⟩, ⟨"FeatureB", exToggleB, true⟩] ∧
      ("Unset", FeatureEntry.default) ∈ (UpdateAll exUnset).features :=
  ⟨rfl, rfl,
    (C19_unset_flag_is_skipped exUnset [("FeatureA", exA)] [("FeatureB", exB)] "Unset"
      FeatureEntry.default rfl rfl).2.1,
    by decide, by decide⟩

/-- C20 at the example: registering `FeatureB` again leaves `FeatureA` alone. -/
theorem C20_witness :
    (("FeatureA", { exA with lastState := true }) ∈ (Register exRunning "FeatureB" exB).features ↔
        ("FeatureA", { exA with lastState := true }) ∈ exRunning.features) ∧
      ("FeatureA", { exA with lastState := true }) ∈ exRunning.features ∧
      (Register exRunning "FeatureB" exB).log = exRunning.log :=
  ⟨(C20_Register_frame exRunning "FeatureB" exB).1 "FeatureA" _ (by decide), by decide,
    (C20_Register_frame exRunning "FeatureB" exB).2.2.1⟩

/-! ## Toggle calls for an entry at a known place of the sweep -/

/-- The toggle calls a sweep makes for the entry that follows `pre` in the iteration
order, the names being distinct: none when an exception ends the sweep inside `pre`,
and otherwise those of the loop body for that entry. -/
theorem sweep_calls_at (fl : Nat → Bool) (pre post : List (String × FeatureEntry))
    (n : String) (e : FeatureEntry) (t : Nat)
    (hnd : ((pre ++ (n, e) :: post).map Prod.fst).Nodup) :
    (sweep fl (pre ++ (n, e) :: post) t).calls.filter (fun c => decide (c.name = n)) =
      if (sweep fl pre t).threw = true then []
      else (updateEntry fl n e (sweep fl pre t).nextTid).calls := by
  simp only [List.map_append, List.map_cons] at hnd
  have hpre : n ∉ pre.map Prod.fst := by
    intro h
    exact (List.nodup_append.mp hnd).2.2 h (List.mem_cons_self _ _)
  have hpost : n ∉ post.map Prod.fst := by
    have h2 := (List.nodup_append.mp hnd).2.1
    simp only [List.nodup_cons] at h2
    exact h2.1
  have hfpre : ∀ t0, (sweep fl pre t0).calls.filter (fun c => decide (c.name = n)) = [] :=
    fun t0 => filter_calls_other _ _
      (fun c hc h => hpre (h ▸ sweep_calls_name fl pre t0 c hc))
  have hfpost : ∀ t0, (sweep fl post t0).calls.filter (fun c => decide (c.name = n)) = [] :=
    fun t0 => filter_calls_other _ _
      (fun c hc h => hpost (h ▸ sweep_calls_name fl post t0 c hc))
  have hfe : ∀ t0, (updateEntry fl n e t0).calls.filter (fun c => decide (c.name = n)) =
      (updateEntry fl n e t0).calls :=
    fun t0 => filter_calls_same _ _ (updateEntry_calls_name fl n e t0)
  rw [sweep_append]
  by_cases hth : (sweep fl pre t).threw = true
  · simp only [hth, if_true]
    exact hfpre t
  · have hth1 : (sweep fl pre t).threw = false := by simpa using hth
    simp only [hth1, Bool.false_eq_true, if_false, sweep]
    by_cases h2 : (updateEntry fl n e (sweep fl pre t).nextTid).threw = true
    · simp only [h2, if_true, List.filter_append, hfpre, List.nil_append]
      exact hfe _
    · have h21 : (updateEntry fl n e (sweep fl pre t).nextTid).threw = false := by
        simpa using h2
      simp only [h21, Bool.false_eq_true, if_false, List.filter_append, hfpre, hfe, hfpost,
        List.nil_append, List.append_nil]

/-- A sweep that returns was not ended inside any initial part of the mapping. -/
theorem sweep_returns_before (fl : Nat → Bool) (pre post : List (String × FeatureEntry))
    (t : Nat) (h : (sweep fl (pre ++ post) t).threw = false) :
    (sweep fl pre t).threw = false := by
  rw [sweep_append] at h
  by_cases hth : (sweep fl pre t).threw = true
  · simp [hth] at h
  · simpa using hth

/-! ## The claims on the toggle calls for an entry the sweep reaches -/

/-- C1 (amended): for every entry with a flag and a toggle callback that the sweep
reaches, that is, when no toggle callback of an entry before it in the iteration
order throws, `UpdateAll` calls the callback exactly once, with the value just read,
when that value differs from `lastState`, and not at all otherwise, also when the
callback itself throws; an entry the sweep does not reach gets no call. A sweep that
returns reaches every entry. The calls are in the log of the state the sweep leaves. -/
theorem C1_UpdateAll_toggle_once (s : State) (pre post : List (String × FeatureEntry))
    (name : String) (e : FeatureEntry) (f : Nat) (cb : Callback)
    (hkeys : s.keys.Nodup) (hfeat : s.features = pre ++ (name, e) :: post)
    (hflag : e.flag = some f) (hcb : e.onToggle = some cb) :
    (UpdateAll s).log = s.log ++ UpdateAllCalls s ∧
      (UpdateAllCalls s).filter (fun c => decide (c.name = name)) =
        (if (sweep s.flags pre s.nextTid).threw = true then []
         else if s.flags f ≠ e.lastState then [⟨name, cb, s.flags f⟩] else []) ∧
      (UpdateAllThrows s = false → (sweep s.flags pre s.nextTid).threw = false) := by
  refine ⟨rfl, ?_, ?_⟩
  · unfold UpdateAllCalls
    have hnd : ((pre ++ (name, e) :: post).map Prod.fst).Nodup := by
      rw [← hfeat]
      exact hkeys
    rw [hfeat, sweep_calls_at s.flags pre post name e s.nextTid hnd,
      updateEntry_calls s.flags name e _ f cb hflag hcb]
  · intro hret
    unfold UpdateAllThrows at hret
    rw [hfeat] at hret
    exact sweep_returns_before _ _ _ _ hret

/-- C6 (amended): an entry of the public constructor has `lastState = false` and no
thread, and `Register` stores it unchanged; if its flag reads true at the next
`UpdateAll` and that sweep reaches the entry (no toggle callback of an entry before it
throws, as in every sweep that returns), the sweep calls its toggle callback with
`true`, once; if the sweep is ended before the entry, it makes no call for it. -/
theorem C6_first_sweep_fires_when_enabled (s : State) (pre post : List (String × FeatureEntry))
    (name : String) (f : Nat) (cb : Callback) (runInThread : Bool)
    (tickFunction : Option Callback) (tickInterval : Nat)
    (hkeys : s.keys.Nodup) (hcur : s.flags f = true)
    (hfeat : (Register s name
        (FeatureEntry.new (some f) (some cb) runInThread tickFunction tickInterval)).features =
      pre ++ (name, FeatureEntry.new (some f) (some cb) runInThread tickFunction tickInterval)
        :: post) :
    (FeatureEntry.new (some f) (some cb) runInThread tickFunction tickInterval).lastState = false ∧
      (FeatureEntry.new (some f) (some cb) runInThread tickFunction tickInterval).thread = none ∧
      (name, FeatureEntry.new (some f) (some cb) runInThread tickFunction tickInterval) ∈
        (Register s name
          (FeatureEntry.new (some f) (some cb) runInThread tickFunction tickInterval)).features ∧
      (UpdateAllCalls (Register s name
          (FeatureEntry.new (some f) (some cb) runInThread tickFunction tickInterval))).filter
        (fun c => decide (c.name = name)) =
          (if (sweep s.flags pre s.nextTid).threw = true then [] else [⟨name, cb, true⟩]) ∧
      (UpdateAllThrows (Register s name
          (FeatureEntry.new (some f) (some cb) runInThread tickFunction tickInterval)) = false →
        (sweep s.flags pre s.nextTid).threw = false) := by
  refine ⟨rfl, rfl, assign_mem _ _ _, ?_, ?_⟩
  · generalize hE : FeatureEntry.new (some f) (some cb) runInThread tickFunction tickInterval = E
      at hfeat ⊢
    have hflag : E.flag = some f := by rw [← hE]; rfl
    have hcb : E.onToggle = some cb := by rw [← hE]; rfl
    have hlast : E.lastState = false := by rw [← hE]; rfl
    have hnd : ((pre ++ (name, E) :: post).map Prod.fst).Nodup := by
      rw [← hfeat]
      exact Register_keys_nodup s name E hkeys
    have hcalls : UpdateAllCalls (Register s name E) =
        (sweep s.flags (Register s name E).features s.nextTid).calls := rfl
    rw [hcalls, hfeat, sweep_calls_at s.flags pre post name E s.nextTid hnd,
      updateEntry_calls s.flags name E _ f cb hflag hcb]
    simp [hcur, hlast]
  · intro hret
    have hthrows : (sweep s.flags (Register s name
        (FeatureEntry.new (some f) (some cb) runInThread tickFunction tickInterval)).features
          s.nextTid).threw = false := hret
    rw [hfeat] at hthrows
    exact sweep_returns_before _ _ _ _ hthrows

/-- C1 as stated fails: `FeatureB` has a flag and a toggle callback and its cell
differs from `lastState`, but the toggle callback of `FeatureA`, swept before it,
throws, and the sweep makes no call for `FeatureB`. -/
theorem C1_counterexample :
    exThrowing.keys.Nodup ∧ ("FeatureB", exB) ∈ exThrowing.features ∧
      exB.flag = some 1 ∧ exB.onToggle = some exToggleB ∧
      exThrowing.flags 1 ≠ exB.lastState ∧
      (UpdateAllCalls exThrowing).filter (fun c => decide (c.name = "FeatureB")) = [] := by
  decide

/-- C1 (amended) at the example, where the sweep reaches `FeatureB` after `FeatureA`,
and at the throwing entry, which is reached and called once. -/
theorem C1_witness :
    exOn.keys.Nodup ∧ exOn.features = [("FeatureA", exA)] ++ ("FeatureB", exB) :: [] ∧
      (UpdateAllCalls exOn).filter (fun c => decide (c.name = "FeatureB")) =
        [⟨"FeatureB", exToggleB, true⟩] ∧
      (UpdateAllCalls exThrowing).filter (fun c => decide (c.name = "FeatureA")) =
        [⟨"FeatureA", exToggleThrowing, true⟩] :=
  ⟨by decide, rfl,
    (C1_UpdateAll_toggle_once exOn [("FeatureA", exA)] [] "FeatureB" exB 1 exToggleB
      (by decide) rfl rfl rfl).2.1.trans (by decide),
    (C1_UpdateAll_toggle_once exThrowing [] [("FeatureB", exB)] "FeatureA" exAThrowing 0
      exToggleThrowing (by decide) rfl rfl rfl).2.1.trans (by decide)⟩

/-- C4 as stated fails: the first sweep is ended by the toggle callback of
`FeatureA` before it visits `FeatureB`; with no cell written in between, the second
sweep calls the toggle callback of `FeatureB` and starts its thread. -/
theorem C4_counterexample :
    UpdateAllThrows exThrowing = true ∧
      UpdateAllCalls (UpdateAll exThrowing) = [⟨"FeatureB", exToggleB, true⟩] ∧
      (UpdateAll exThrowing).runningCount "FeatureB" = 0 ∧
      (UpdateAll (UpdateAll exThrowing)).runningCount "FeatureB" = 1 := by
  decide

/-- C6 as stated fails: `FeatureB` is registered while its cell holds true, but an
entry whose toggle callback throws is swept before it, and the next sweep makes no
call for `FeatureB`. -/
theorem C6_counterexample :
    exThrowingPrior.keys.Nodup ∧ exThrowingPrior.flags 1 = true ∧
      ("FeatureB", exB) ∈ (Register exThrowingPrior "FeatureB" exB).features ∧
      (UpdateAllCalls (Register exThrowingPrior "FeatureB" exB)).filter
        (fun c => decide (c.name = "FeatureB")) = [] := by
  decide

/-- C6 (amended) at the example: `FeatureB` registered again over `lastState = true`
is reached by the next sweep and fires. -/
theorem C6_witness :
    exRunning.keys.Nodup ∧ exRunning.flags 1 = true ∧
      ("FeatureB", exBRunning) ∈ exRunning.features ∧ exBRunning.lastState = true ∧
      (Register exRunning "FeatureB" exB).features =
        [("FeatureA", { exA with lastState := true })] ++ ("FeatureB", exB) :: [] ∧
      (UpdateAllCalls (Register exRunning "FeatureB" exB)).filter
        (fun c => decide (c.name = "FeatureB")) = [⟨"FeatureB", exToggleB, true⟩] :=
  ⟨by decide, by decide, by decide, rfl, by decide,
    (C6_first_sweep_fires_when_enabled exRunning [("FeatureA", { exA with lastState := true })]
      [] "FeatureB" 1 exToggleB true (some exTickB) 500 (by decide) (by decide)
      (by decide)).2.2.2.1.trans (by decide)⟩

end ThreadedFeatures
